import Mathlib

/-!
Verification development for the autonomous CI/CD pipeline healer.

The Python sources under backend/app are shallowly embedded below:
pure functions become Lean functions, the Git working tree and the
subprocess/filesystem boundaries become explicit state values or
outcome parameters, and Python exceptions become Except/Option.
-/

set_option maxRecDepth 4000

/- ──────────────────────────────────────────────────────────────────
   app/core/retry_manager.py
   ────────────────────────────────────────────────────────────────── -/

/-- Embedding of the RetryManager class state: the configured ceiling
and the private attempt counter (Python ints). -/
structure RetryManager where
  max_retries : Int
  attempts : Int
  deriving Repr, DecidableEq

/-- Embedding of RetryManager.has_exceeded: attempts >= max_retries. -/
def RetryManager.has_exceeded (m : RetryManager) : Bool :=
  m.attempts ≥ m.max_retries

/-- Embedding of RetryManager.should_retry: False unless the conclusion
is "failure"; False when the limit is reached; True otherwise. -/
def RetryManager.should_retry (m : RetryManager) (conclusion : String) : Bool :=
  if conclusion ≠ "failure" then
    false
  else if m.has_exceeded then
    false
  else
    true

/-- Embedding of RetryManager.track_attempt: increment the counter. -/
def RetryManager.track_attempt (m : RetryManager) : RetryManager :=
  { m with attempts := m.attempts + 1 }

/-- Embedding of RetryManager.__init__ (attempts start at 0). -/
def RetryManager.init (max_retries : Int) : RetryManager :=
  ⟨max_retries, 0⟩

/-- Repeated track_attempt, as done by the fast-forward loop
`for _ in range(iteration): manager.track_attempt()` in graph.py. -/
def RetryManager.fastForward (m : RetryManager) : Nat → RetryManager
  | 0 => m
  | n + 1 => (m.fastForward n).track_attempt

/- ──────────────────────────────────────────────────────────────────
   app/integrations/github_client.py and
   app/agents/nodes/git_committer.py

   The local Git repository is modelled as an abstract state: the
   checked-out branch, whether the working tree has any staged,
   unstaged or untracked modifications, and the histories of commits
   and pushes performed by the client (each commit is recorded with
   the branch it landed on and its full message). Raised exceptions
   become Except.error.
   ────────────────────────────────────────────────────────────────── -/

/-- Exceptions raised by the git layer: BranchProtectionError from
github_client.py and NoChangesDetectedError from git_committer.py. -/
inductive GitError
  | branchProtection (branch : String)
  | noChanges
  deriving Repr, DecidableEq

/-- Abstract state of the local repository seen by GitHubClient. -/
structure GitRepo where
  activeBranch : String
  dirtyTree : Bool
  commits : List (String × String)
  pushes : List String
  deriving Repr, DecidableEq

/-- Embedding of PROTECTED_BRANCHES = {"main", "master"}. -/
def protectedBranches : List String := ["main", "master"]

/-- Embedding of COMMIT_PREFIX = "[AI-AGENT]". -/
def commitMarker : String := "[AI-AGENT]"

/-- Embedding of GitHubClient._assert_not_protected: raise when the
active branch is protected. -/
def GitRepo.assert_not_protected (r : GitRepo) : Except GitError Unit :=
  if protectedBranches.contains r.activeBranch then
    .error (.branchProtection r.activeBranch)
  else
    .ok ()

/-- Embedding of GitHubClient.commit_all: guard first, then stage all
(`git add -A`); if nothing is staged against HEAD and nothing was
untracked, return silently; otherwise commit with the fixed marker
prepended to the message. After `add -A`, the index differs from HEAD
exactly when the tree was dirty. -/
def GitRepo.commit_all (r : GitRepo) (message : String) : Except GitError GitRepo := do
  let _ ← r.assert_not_protected
  if ¬ r.dirtyTree then
    return r
  else
    return { r with
      dirtyTree := false,
      commits := r.commits ++ [(r.activeBranch, commitMarker ++ " " ++ message)] }

/-- Embedding of GitHubClient.push_current_branch: guard first, then
push the active branch to origin. -/
def GitRepo.push_current_branch (r : GitRepo) : Except GitError GitRepo := do
  let _ ← r.assert_not_protected
  return { r with pushes := r.pushes ++ [r.activeBranch] }

/-- Embedding of GitHubClient.create_branch: refuse protected names,
otherwise create and check out the new branch. -/
def GitRepo.create_branch (r : GitRepo) (name : String) : Except GitError GitRepo :=
  if protectedBranches.contains name then
    .error (.branchProtection name)
  else
    .ok { r with activeBranch := name }

/-- Embedding of git_committer.commit_fix: raise NoChangesDetectedError
when the tree is clean (repo.is_dirty(untracked_files=True) is False),
then commit_all and push_current_branch. -/
def commit_fix (r : GitRepo) (message : String) : Except GitError GitRepo := do
  if ¬ r.dirtyTree then
    throw .noChanges
  else
    let r1 ← r.commit_all message
    r1.push_current_branch

/-- Operations the system can invoke on the git layer. -/
inductive GitOp
  | commitAll (message : String)
  | pushBranch
  | createBranch (name : String)
  | commitFix (message : String)
  | dirty
  deriving Repr

/-- Run one operation; a raised exception leaves the repository state
unchanged (every embedded operation mutates nothing before it throws).
The `dirty` pseudo-operation models outside edits to the working tree. -/
def GitRepo.applyOp (r : GitRepo) : GitOp → GitRepo
  | .commitAll m =>
    match r.commit_all m with
    | .ok r' => r'
    | .error _ => r
  | .pushBranch =>
    match r.push_current_branch with
    | .ok r' => r'
    | .error _ => r
  | .createBranch n =>
    match r.create_branch n with
    | .ok r' => r'
    | .error _ => r
  | .commitFix m =>
    match commit_fix r m with
    | .ok r' => r'
    | .error _ => r
  | .dirty => { r with dirtyTree := true }

/-- Run a sequence of operations. -/
def GitRepo.applyOps (r : GitRepo) (ops : List GitOp) : GitRepo :=
  ops.foldl GitRepo.applyOp r

/- ──────────────────────────────────────────────────────────────────
   app/core/docker_sandbox.py (run_pytest_in_docker) and
   app/integrations/docker_sandbox.py (run_pytest)

   The subprocess boundary is modelled as an outcome value: the
   process either completed with an exit code and captured output, or
   the call raised one of the exception classes the code handles
   (TimeoutExpired carrying optional partial output, FileNotFoundError,
   non-timeout SubprocessError, OSError) or some other exception.
   ────────────────────────────────────────────────────────────────── -/

/-- Outcome of the subprocess.run call. -/
inductive ProcOutcome
  | completed (returncode : Int) (stdout stderr : String)
  | timedOut (stdout stderr : Option String)
  | missingExe
  | subprocessFault (msg : String)
  | osFault (msg : String)
  | unexpectedFault (msg : String)
  deriving Repr, DecidableEq

/-- Structured result dictionary returned by both sandbox runners. -/
structure SandboxResult where
  success : Bool
  exit_code : Int
  stdout : String
  stderr : String
  error : Option String
  deriving Repr, DecidableEq

/-- Initial result dictionary shared by both runners. -/
def sandboxBase : SandboxResult :=
  ⟨false, -1, "", "", none⟩

/-- Embedding of integrations/docker_sandbox.run_pytest. The path
check `os.path.isdir(repo_path)` is the parameter repoIsDir; every
exception inside the try block is caught, including a final broad
`except Exception`, so the function is total. -/
def run_pytest (repoIsDir : Bool) (repoPath : String) (timeout : Int)
    (proc : ProcOutcome) : SandboxResult :=
  if ¬ repoIsDir then
    { sandboxBase with
      error := some ("Repository path does not exist or is not a directory: " ++ repoPath) }
  else
    match proc with
    | .completed rc out err =>
      { sandboxBase with
        exit_code := rc, stdout := out, stderr := err, success := decide (rc = 0) }
    | .timedOut out err =>
      { sandboxBase with
        error := some ("pytest timed out after " ++ toString timeout ++ " seconds."),
        stdout := out.getD "", stderr := err.getD "" }
    | .missingExe =>
      { sandboxBase with
        error := some "Python executable not found. Ensure Python is installed and on PATH." }
    | .subprocessFault m =>
      { sandboxBase with
        error := some ("Unexpected error while running pytest: " ++ m) }
    | .osFault m =>
      { sandboxBase with
        error := some ("OS error while running pytest: " ++ m) }
    | .unexpectedFault m =>
      { sandboxBase with
        error := some ("Unexpected error while running pytest: " ++ m) }

/-- Outcome of the fixture-synthesis phase at the top of
run_pytest_in_docker: the os.path.exists / os.listdir / os.makedirs /
open calls either complete, or one of them raises (for example
os.listdir raises FileNotFoundError when repo_path does not exist).
That phase sits before the try block. -/
inductive FsPhase
  | ok
  | raises (exc : String)
  deriving Repr, DecidableEq

/-- Embedding of core/docker_sandbox.run_pytest_in_docker. An
exception in the fixture-synthesis phase propagates to the caller
(Except.error), as does any exception the try block does not
handle; the handled exception classes produce the structured result. -/
def run_pytest_in_docker (fs : FsPhase) (timeout : Int)
    (proc : ProcOutcome) : Except String SandboxResult :=
  match fs with
  | .raises e => .error e
  | .ok =>
    match proc with
    | .completed rc out err =>
      .ok { sandboxBase with
        exit_code := rc, stdout := out, stderr := err, success := decide (rc = 0) }
    | .timedOut out err =>
      .ok { sandboxBase with
        error := some ("Timeout after " ++ toString timeout ++ "s"),
        stdout := out.getD "", stderr := err.getD "" }
    | .missingExe =>
      .ok { sandboxBase with
        error := some "docker executable not found. Is Docker installed and on PATH?" }
    | .subprocessFault m =>
      .ok { sandboxBase with error := some ("SubprocessError: " ++ m) }
    | .osFault m =>
      .ok { sandboxBase with error := some ("OSError: " ++ m) }
    | .unexpectedFault m => .error m

/- ──────────────────────────────────────────────────────────────────
   app/agents/nodes/fix_validator.py

   The Python ast.parse call on the updated content is an external
   capability; its outcome (success, SyntaxError with a message, or
   some other exception) is a parameter. validate_fix is the try and
   the two except arms around it.
   ────────────────────────────────────────────────────────────────── -/

/-- Outcome of ast.parse(updated_content). -/
inductive PyParseOutcome
  | ok
  | syntaxError (msg : String)
  | otherError (msg : String)
  deriving Repr, DecidableEq

/-- Embedding of fix_validator.validate_fix. -/
def validate_fix : PyParseOutcome → String
  | .ok => "VALID"
  | .syntaxError m => "INVALID: syntax error - " ++ m
  | .otherError m => "INVALID: " ++ m

/-- Recognized bug kinds of the classifier (failure_classifier.py and
test_case_formatter.py). -/
def recognizedKinds : List String :=
  ["LINTING", "SYNTAX", "LOGIC", "TYPE_ERROR", "IMPORT", "INDENTATION"]

/- ──────────────────────────────────────────────────────────────────
   Character and string utilities shared by the embeddings, matching
   the ASCII fragment of the Python string operations used.
   ────────────────────────────────────────────────────────────────── -/

/-- Python whitespace as tested by str.strip and the regex class \s
(ASCII fragment: space, tab, newline, carriage return, vertical tab,
form feed). -/
def pyIsSpace (c : Char) : Bool :=
  c = ' ' || c = '\t' || c = '\n' || c = '\r' || c = Char.ofNat 11 || c = Char.ofNat 12

/-- Python str.strip on the left. -/
def pyLstrip (l : List Char) : List Char := l.dropWhile pyIsSpace

/-- Python str.strip on the right. -/
def pyRstrip (l : List Char) : List Char := (l.reverse.dropWhile pyIsSpace).reverse

/-- Python str.strip. -/
def pyStrip (l : List Char) : List Char := pyRstrip (pyLstrip l)

/-- Uppercase ASCII letter or digit, the class [A-Z0-9]. -/
def isUpperAlnum (c : Char) : Bool :=
  ('A' ≤ c && c ≤ 'Z') || ('0' ≤ c && c ≤ '9')

/-- ASCII letter or digit, the class [a-zA-Z0-9]. -/
def isAsciiAlnum (c : Char) : Bool :=
  ('a' ≤ c && c ≤ 'z') || ('A' ≤ c && c ≤ 'Z') || ('0' ≤ c && c ≤ '9')

/-- Literal check: does s start with the pattern pat. -/
def startsWithL (pat s : List Char) : Bool :=
  s.take pat.length = pat

/- ──────────────────────────────────────────────────────────────────
   app/core/branching_naming.py and app/core/guard.py
   ────────────────────────────────────────────────────────────────── -/

/-- Embedding of re.sub(r"_+", "_", -) : collapse every run of
consecutive underscores to a single underscore. -/
def collapseU : List Char → List Char
  | [] => []
  | [c] => [c]
  | c1 :: c2 :: t =>
    if c1 = '_' ∧ c2 = '_' then collapseU (c2 :: t)
    else c1 :: collapseU (c2 :: t)

/-- Strip underscores from the right end. -/
def rstripU (l : List Char) : List Char :=
  (l.reverse.dropWhile (fun c => c = '_')).reverse

/-- Embedding of str.strip("_"). -/
def stripU (l : List Char) : List Char :=
  rstripU (l.dropWhile (fun c => c = '_'))

/-- Embedding of re.sub(r"[^A-Z0-9]", "_", -) on one character. -/
def toUnder (c : Char) : Char :=
  if isUpperAlnum c then c else '_'

/-- Embedding of the _sanitize helper in branching_naming.generate_branch:
uppercase, strip whitespace, replace every character outside [A-Z0-9]
with an underscore, collapse runs of underscores, strip underscores. -/
def sanitize (value : String) : List Char :=
  let upper := pyStrip (value.data.map Char.toUpper)
  stripU (collapseU (upper.map toUnder))

/-- Embedding of branching_naming.generate_branch. The TypeError arm
cannot arise in the typed embedding; the two ValueError arms become
none. -/
def generate_branch (team_name leader_name : String) : Option String :=
  if (pyStrip team_name.data).isEmpty then none
  else if (pyStrip leader_name.data).isEmpty then none
  else some (String.mk (sanitize team_name) ++ "_" ++ String.mk (sanitize leader_name) ++ "_AI_FIX")

/-- Maximal runs of [A-Z0-9] characters of a list, in order. -/
def alnumRuns : List Char → List (List Char)
  | [] => []
  | c :: t =>
    if isUpperAlnum c then
      (c :: t.takeWhile isUpperAlnum) ::
        alnumRuns ((t.dropWhile isUpperAlnum).dropWhile (fun c => ¬ isUpperAlnum c))
    else
      alnumRuns t
termination_by l => l.length
decreasing_by
  · simp only [List.length_cons]
    have key : ∀ (p : Char → Bool) (l : List Char), (l.dropWhile p).length ≤ l.length := by
      intro p l
      induction l with
      | nil => simp
      | cons a l ih =>
        rw [List.dropWhile_cons]
        split
        · exact Nat.le_succ_of_le ih
        · simp
    have h1 := key (fun c => decide (¬ isUpperAlnum c)) (t.dropWhile isUpperAlnum)
    have h2 := key isUpperAlnum t
    omega
  · simp

/-- Description of the sanitizer in the words of the specification:
the identifier is uppercased and every maximal run of
non-alphanumeric characters is collapsed to a single underscore
(runs at either end disappear), i.e. the maximal alphanumeric runs
joined by single underscores. -/
def joinRuns : List (List Char) → List Char
  | [] => []
  | [r] => r
  | r :: rs => r ++ '_' :: joinRuns rs

/-- Spec-side sanitizer: maximal alphanumeric runs of the uppercased
identifier, joined by single underscores. -/
def sanitizeSpec (value : String) : List Char :=
  joinRuns (alnumRuns (value.data.map Char.toUpper))

/-- Embedding of guard.generate_branch: lowercase, replace every
character outside [a-zA-Z0-9] by a dash, and put the fix/ marker in
front. -/
def guardGenerateBranch (team leader : String) : String :=
  let clean := fun (s : String) =>
    String.mk ((s.data.map Char.toLower).map (fun c => if isAsciiAlnum c then c else '-'))
  "fix/" ++ clean team ++ "-" ++ clean leader

/-- Embedding of guard.validate_branch: true when no exception is
raised, i.e. exactly when the branch equals guard.generate_branch of
the team and leader. -/
def validate_branch (team leader branch : String) : Bool :=
  branch = guardGenerateBranch team leader

/- ──────────────────────────────────────────────────────────────────
   app/agents/graph.py

   The compiled LangGraph pipeline: nine named nodes, the linear
   healing chain, and the three conditional edges after_tests,
   after_ci and after_retry. The fields of AgentState that the
   routing reads (iteration, max_retries, ci_status, final_status)
   are explicit; every other field (failures, classified_failures,
   applied_fixes, logs, timestamps, ...) lives in an opaque payload
   that each node may transform through the environment, which also
   supplies the outcome of each test execution and each CI poll.
   ────────────────────────────────────────────────────────────────── -/

/-- Node names registered in graph.compile(). -/
inductive GNode
  | cloneRepo
  | runTests
  | failureClassifier
  | fixGenerator
  | fixValidator
  | gitCommitter
  | pushBranch
  | monitorCi
  | retryDecision
  deriving Repr, DecidableEq

/-- Routing-relevant slice of AgentState plus the opaque rest. -/
structure PipeState (α : Type) where
  iteration : Int
  maxRetries : Int
  ciStatus : String
  finalStatus : Option String
  payload : α

/-- External behaviour: result of the k-th execute_tests call, result
of the k-th CI poll, and the payload update each node performs (given
the node, the pre-state and the boolean outcome relevant to it). -/
structure GraphEnv (α : Type) where
  testPassed : Nat → Bool
  ciSuccess : Nat → Bool
  payloadStep : GNode → PipeState α → Bool → α

/-- Embedding of node_retry_decision: rebuild a RetryManager, fast
forward it by the current iteration, ask should_retry("failure");
grant by incrementing iteration, otherwise set final_status failed. -/
def nodeRetryDecision {α : Type} (env : GraphEnv α) (s : PipeState α) : PipeState α :=
  let m := (RetryManager.init s.maxRetries).fastForward s.iteration.toNat
  if m.should_retry "failure" then
    { s with iteration := s.iteration + 1,
             payload := env.payloadStep .retryDecision s true }
  else
    { s with finalStatus := some "failed",
             payload := env.payloadStep .retryDecision s false }

/-- One node execution: returns the updated state and the updated
counts of run_tests and monitor_ci executions so far. -/
def stepNode {α : Type} (env : GraphEnv α) (n : GNode) (s : PipeState α)
    (tv cv : Nat) : PipeState α × Nat × Nat :=
  match n with
  | .cloneRepo => ({ s with payload := env.payloadStep n s true }, tv, cv)
  | .runTests =>
    let passed := env.testPassed tv
    ({ s with ciStatus := if passed then "passed" else "failed",
              finalStatus := if passed then some "passed" else s.finalStatus,
              payload := env.payloadStep n s passed }, tv + 1, cv)
  | .monitorCi =>
    let ok := env.ciSuccess cv
    ({ s with ciStatus := if ok then "passed" else "failed",
              finalStatus := if ok then some "fixed" else s.finalStatus,
              payload := env.payloadStep n s ok }, tv, cv + 1)
  | .retryDecision => (nodeRetryDecision env s, tv, cv)
  | _ => ({ s with payload := env.payloadStep n s true }, tv, cv)

/-- Routing after a node has run: the unconditional edges of the
healing chain and the conditional edges after_tests, after_ci,
after_retry; none is END. -/
def routeAfter {α : Type} (n : GNode) (s : PipeState α) : Option GNode :=
  match n with
  | .cloneRepo => some .runTests
  | .runTests => if s.ciStatus = "passed" then none else some .failureClassifier
  | .failureClassifier => some .fixGenerator
  | .fixGenerator => some .fixValidator
  | .fixValidator => some .gitCommitter
  | .gitCommitter => some .pushBranch
  | .pushBranch => some .monitorCi
  | .monitorCi => if s.ciStatus = "passed" then none else some .retryDecision
  | .retryDecision => if s.finalStatus = some "failed" then none else some .runTests

/-- Fuelled executor: run node after node until a conditional edge
resolves to END; returns the final state and how many times the
test-execution node ran. -/
def runGraph {α : Type} (env : GraphEnv α) :
    Nat → GNode → PipeState α → Nat → Nat → Option (PipeState α × Nat)
  | 0, _, _, _, _ => none
  | fuel + 1, n, s, tv, cv =>
    let r := stepNode env n s tv cv
    match routeAfter n r.1 with
    | none => some (r.1, r.2.1)
    | some n' => runGraph env fuel n' r.1 r.2.1 r.2.2

/- ──────────────────────────────────────────────────────────────────
   app/agents/graph.py, node_run_tests: the failure extractor.

   The regex r"([^:\s\n]+):(\d+): (.+)" is scanned over the raw error
   text with re.finditer semantics: at each position try to match;
   each part of the pattern is deterministic (the first class excludes
   the colon that must follow it, a digit cannot resume the literal
   that follows the digits), so a match is a maximal run of
   path-characters, a colon, a maximal run of digits, a colon and a
   space, then the maximal run of non-newline characters, which must
   all be nonempty. On failure the scan advances one character; on
   success it resumes after the match.
   ────────────────────────────────────────────────────────────────── -/

/-- Characters admitted in the first group: the class [^:\s\n]. -/
def goodFileChar (c : Char) : Bool :=
  ¬ (c = ':' || pyIsSpace c)

/-- Python int() of a digit string. -/
def digitsToNat (l : List Char) : Nat :=
  l.foldl (fun n c => 10 * n + (c.toNat - '0'.toNat)) 0

/-- Attempt to match ([^:\s\n]+):(\d+): (.+) at the head of the text;
on success return the file, line and message groups and the rest of
the text after the match. -/
def tryMatch (cs : List Char) : Option ((String × Nat × String) × List Char) :=
  let f := cs.takeWhile goodFileChar
  if f.isEmpty then none
  else
    match cs.drop f.length with
    | c1 :: r1 =>
      if c1 = ':' then
        let d := r1.takeWhile Char.isDigit
        if d.isEmpty then none
        else
          match r1.drop d.length with
          | c2 :: c3 :: r2 =>
            if c2 = ':' ∧ c3 = ' ' then
              let m := r2.takeWhile (fun c => c ≠ '\n')
              if m.isEmpty then none
              else some ((String.mk f, digitsToNat d, String.mk m), r2.drop m.length)
            else none
          | _ => none
      else none
    | [] => none

/-- Fuelled finditer scan. -/
def scanAux : Nat → List Char → List (String × Nat × String)
  | 0, _ => []
  | _, [] => []
  | fuel + 1, c :: rest =>
    match tryMatch (c :: rest) with
    | some (r, remaining) => r :: scanAux fuel remaining
    | none => scanAux fuel rest

/-- All matches of the failure pattern in the raw error text. -/
def scanFailures (cs : List Char) : List (String × Nat × String) :=
  scanAux cs.length cs

/-- Failure record appended to state["failures"] by node_run_tests. -/
structure FailureRec where
  file : String
  line : Nat
  error : String
  iteration : Int
  deriving Repr, DecidableEq

/-- Embedding of the failure-extraction branch of node_run_tests: on
a failed run, append one record per match of the pattern, storing the
message group stripped (msg.strip() in the source), and when nothing
matched append the single fallback record with the first 500
characters of the raw text, unstripped. -/
def extractFailures (prev : List FailureRec) (raw : String) (iter : Int) : List FailureRec :=
  let found := scanFailures raw.data
  if found.isEmpty then
    prev ++ [⟨"unknown", 0, String.mk (raw.data.take 500), iter⟩]
  else
    prev ++ found.map (fun t => ⟨t.1, t.2.1, String.mk (pyStrip t.2.2.data), iter⟩)

/-- Declarative reading of one match of ([^:\s\n]+):(\d+): (.+) at
the head of a text. -/
def matchDecomp (cs : List Char) : Prop :=
  ∃ f d c r, cs = f ++ [':'] ++ d ++ [':', ' '] ++ c :: r ∧
    f ≠ [] ∧ (∀ x ∈ f, goodFileChar x) ∧
    d ≠ [] ∧ (∀ x ∈ d, x.isDigit) ∧ c ≠ '\n'

/- ──────────────────────────────────────────────────────────────────
   app/core/test_case_formatter.py

   reconstruct_format strips the raw string and matches it against
   re.match(r"(LINTING|SYNTAX|LOGIC|TYPE_ERROR|IMPORT|INDENTATION)
             error in (.+) line (\d+) → Fix: (.+)").
   The alternation and the digit group are deterministic; the file
   group (.+) is greedy with backtracking, so it captures the longest
   newline-free prefix after which the rest of the pattern still
   matches. The search below tries splits from the longest down, which
   is the Python behaviour. On a match the groups are reassembled with
   the file path lowercased; otherwise ValueError is raised (none).
   ────────────────────────────────────────────────────────────────── -/

/-- Bug-kind literal lists for the alternation. -/
def kindLits : List (List Char) :=
  ["LINTING".data, "SYNTAX".data, "LOGIC".data, "TYPE_ERROR".data,
   "IMPORT".data, "INDENTATION".data]

/-- Match the alternation of the six bug kinds at the head of the
text, returning the kind and the rest. -/
def matchKind (cs : List Char) : Option (List Char × List Char) :=
  match kindLits.find? (fun k => startsWithL k cs) with
  | some k => some (k, cs.drop k.length)
  | none => none

/-- Match " line (\d+) → Fix: (.+)" at the head of the text: the
literal, a maximal nonempty digit run, the literal, then the maximal
nonempty newline-free message. Returns the digit and message groups. -/
def tailFix (cs : List Char) : Option (List Char × List Char) :=
  if startsWithL " line ".data cs then
    let r1 := cs.drop " line ".data.length
    let d := r1.takeWhile Char.isDigit
    if d.isEmpty then none
    else
      let r2 := r1.drop d.length
      if startsWithL " → Fix: ".data r2 then
        let fx := (r2.drop " → Fix: ".data.length).takeWhile (fun c => c ≠ '\n')
        if fx.isEmpty then none else some (d, fx)
      else none
  else none

/-- Is k an admissible split for the greedy file group: the first k
characters are a nonempty newline-free capture and the tail pattern
matches what follows. -/
def validSplit (cs : List Char) (k : Nat) : Bool :=
  (cs.take k).all (fun c => c ≠ '\n') && (tailFix (cs.drop k)).isSome

/-- Greedy backtracking for the file group: try the longest split
first, counting down. -/
def findSplit (cs : List Char) : Nat → Option Nat
  | 0 => none
  | k + 1 => if validSplit cs (k + 1) then some (k + 1) else findSplit cs k

/-- Parse of the full classifier pattern against the stripped string,
returning the four captured groups (kind, file, line digits, fix). -/
def parseClassifier (s : String) : Option (List Char × List Char × List Char × List Char) :=
  let cs := pyStrip s.data
  match matchKind cs with
  | none => none
  | some (k, r0) =>
    if startsWithL " error in ".data r0 then
      let r1 := r0.drop " error in ".data.length
      match findSplit r1 r1.length with
      | none => none
      | some kk =>
        match tailFix (r1.drop kk) with
        | some (d, fx) => some (k, r1.take kk, d, fx)
        | none => none
    else none

/-- Embedding of test_case_formatter.reconstruct_format: parse, then
reassemble with the file path lowercased; none models the ValueError
on a failed match. -/
def reconstruct_format (raw : String) : Option String :=
  match parseClassifier raw with
  | none => none
  | some (k, f, d, fx) =>
    some (String.mk k ++ " error in " ++ String.mk (f.map Char.toLower) ++
          " line " ++ String.mk d ++ " → Fix: " ++ String.mk fx)

/-- The output grammar of the classifier (failure_classifier.py):
"{KIND} error in {file} line {line} → Fix: {description}". -/
def classifierString (kind file line desc : String) : String :=
  kind ++ " error in " ++ file ++ " line " ++ line ++ " → Fix: " ++ desc

/-- The conservative fallback emitted by classify_failure when the
AI call or the formatter fails. -/
def unknownFallback (file_path : String) (line_number : Int) : String :=
  "UNKNOWN error in " ++ file_path ++ " line " ++ toString line_number ++
    " → Fix: manual review required"

/-- Declarative reading of the strict classifier grammar on a stripped
string: one of the six kinds, the literal, a nonempty newline-free
file, the literal, nonempty digits, the literal, and a nonempty
description starting with a non-newline character (re.match does not
need to consume the whole string). -/
def classifierGrammar (cs : List Char) : Prop :=
  ∃ k f d c r, k ∈ kindLits ∧
    cs = k ++ " error in ".data ++ f ++ " line ".data ++ d ++ " → Fix: ".data ++ c :: r ∧
    f ≠ [] ∧ (∀ x ∈ f, x ≠ '\n') ∧
    d ≠ [] ∧ (∀ x ∈ d, x.isDigit) ∧ c ≠ '\n'

/- ──────────────────────────────────────────────────────────────────
   Theorems. General helper lemmas come first, then one theorem per
   claim (with its witness where the statement carries hypotheses).
   ────────────────────────────────────────────────────────────────── -/

theorem length_dropWhile_le (p : Char → Bool) (l : List Char) :
    (l.dropWhile p).length ≤ l.length := by
  induction l with
  | nil => simp
  | cons a l ih =>
    rw [List.dropWhile_cons]
    split
    · exact Nat.le_succ_of_le ih
    · simp

/-- C1: should_retry is true exactly when the conclusion is "failure"
and the attempts so far are strictly below the ceiling; any other
conclusion gives false regardless of the count; has_exceeded is true
exactly when attempts have reached the ceiling; and fast-forwarding a
fresh manager records exactly n attempts. -/
theorem retryManager_characterisation :
    ∀ (max attempts : Int) (conclusion : String) (n : Nat),
      ((RetryManager.mk max attempts).should_retry conclusion = true ↔
        conclusion = "failure" ∧ attempts < max) ∧
      ((RetryManager.mk max attempts).has_exceeded = true ↔ max ≤ attempts) ∧
      ((RetryManager.init max).fastForward n).attempts = (n : Int) := by
  intro max attempts conclusion n
  refine ⟨?_, ?_, ?_⟩
  · by_cases hc : conclusion = "failure"
    · simp [RetryManager.should_retry, RetryManager.has_exceeded, hc]
    · simp [RetryManager.should_retry, hc]
  · simp [RetryManager.has_exceeded]
  · induction n with
    | zero => simp [RetryManager.fastForward, RetryManager.init]
    | succ k ih =>
      simp [RetryManager.fastForward, RetryManager.track_attempt, ih]

/-- C3 counterexample: validation does not check that the replacement
differs from the original nor that the classification is recognized;
with identical original and replacement and parsing content it still
returns VALID, refuting the claimed three-way equivalence. -/
theorem validateFix_claim_false :
    ¬ (∀ (original replacement classification : String) (pr : PyParseOutcome),
        validate_fix pr = "VALID" ↔
          (replacement ≠ original ∧ pr = PyParseOutcome.ok ∧
            classification ∈ recognizedKinds)) := by
  intro h
  have h2 := (h "x = 1" "x = 1" "SYNTAX" .ok).mp rfl
  exact h2.1 rfl

/-- C3 amended: validate_fix returns VALID exactly when the content
parses (the outcome of ast.parse is ok); on any parse failure it
returns a string starting with INVALID:, and it never raises (it is a
total function of the parse outcome). -/
theorem validateFix_valid_iff_parses (pr : PyParseOutcome) :
    (validate_fix pr = "VALID" ↔ pr = PyParseOutcome.ok) ∧
    (pr ≠ PyParseOutcome.ok → (validate_fix pr).data.take 8 = "INVALID:".data) := by
  cases pr with
  | ok => simp [validate_fix]
  | syntaxError m =>
    refine ⟨⟨fun h => ?_, fun h => by cases h⟩, fun _ => ?_⟩
    · exfalso
      have hl := congrArg (fun s => s.data.length) h
      simp only [validate_fix, String.data_append, List.length_append] at hl
      simp at hl
      omega
    show (("INVALID: syntax error - " ++ m).data.take 8) = "INVALID:".data
    rw [String.data_append]
    rw [List.take_append_of_le_length (by simp)]
    rfl
  | otherError m =>
    refine ⟨⟨fun h => ?_, fun h => by cases h⟩, fun _ => ?_⟩
    · exfalso
      have hl := congrArg (fun s => s.data.length) h
      simp only [validate_fix, String.data_append, List.length_append] at hl
      simp at hl
      omega
    show (("INVALID: " ++ m).data.take 8) = "INVALID:".data
    rw [String.data_append]
    rw [List.take_append_of_le_length (by simp)]
    rfl

/-- C3 witness: the amended theorem applied at a concrete parse
failure. -/
theorem validateFix_valid_iff_parses_witness :
    (validate_fix (PyParseOutcome.syntaxError "bad")).data.take 8 = "INVALID:".data :=
  (validateFix_valid_iff_parses (PyParseOutcome.syntaxError "bad")).2 (by decide)

theorem commit_all_protected (r : GitRepo) (msg : String)
    (hp : protectedBranches.contains r.activeBranch = true) :
    r.commit_all msg = .error (.branchProtection r.activeBranch) := by
  have hp' : r.activeBranch ∈ protectedBranches := by simpa using hp
  simp [GitRepo.commit_all, GitRepo.assert_not_protected, hp', Bind.bind, Except.bind]

theorem commit_all_clean (r : GitRepo) (msg : String)
    (hp : protectedBranches.contains r.activeBranch = false)
    (hd : r.dirtyTree = false) : r.commit_all msg = .ok r := by
  have hp' : r.activeBranch ∉ protectedBranches := by simpa using hp
  simp [GitRepo.commit_all, GitRepo.assert_not_protected, hp', hd, Bind.bind, Except.bind,
    pure, Except.pure]

theorem commit_all_dirty (r : GitRepo) (msg : String)
    (hp : protectedBranches.contains r.activeBranch = false)
    (hd : r.dirtyTree = true) :
    r.commit_all msg =
      .ok { r with
            dirtyTree := false,
            commits := r.commits ++ [(r.activeBranch, commitMarker ++ " " ++ msg)] } := by
  have hp' : r.activeBranch ∉ protectedBranches := by simpa using hp
  simp [GitRepo.commit_all, GitRepo.assert_not_protected, hp', hd, Bind.bind, Except.bind,
    pure, Except.pure]

theorem push_protected (r : GitRepo)
    (hp : protectedBranches.contains r.activeBranch = true) :
    r.push_current_branch = .error (.branchProtection r.activeBranch) := by
  have hp' : r.activeBranch ∈ protectedBranches := by simpa using hp
  simp [GitRepo.push_current_branch, GitRepo.assert_not_protected, hp', Bind.bind, Except.bind]

theorem push_ok (r : GitRepo)
    (hp : protectedBranches.contains r.activeBranch = false) :
    r.push_current_branch = .ok { r with pushes := r.pushes ++ [r.activeBranch] } := by
  have hp' : r.activeBranch ∉ protectedBranches := by simpa using hp
  simp [GitRepo.push_current_branch, GitRepo.assert_not_protected, hp', Bind.bind, Except.bind,
    pure, Except.pure]

theorem commit_fix_dirty_unprotected (r : GitRepo) (m : String)
    (hp : protectedBranches.contains r.activeBranch = false)
    (hd : r.dirtyTree = true) :
    commit_fix r m = .ok ⟨r.activeBranch, false,
      r.commits ++ [(r.activeBranch, commitMarker ++ " " ++ m)],
      r.pushes ++ [r.activeBranch]⟩ := by
  have h1 := commit_all_dirty r m hp hd
  have h2 := push_ok ⟨r.activeBranch, false,
    r.commits ++ [(r.activeBranch, commitMarker ++ " " ++ m)], r.pushes⟩ (by simpa using hp)
  simp only [commit_fix, hd, Bind.bind, Except.bind, Bool.not_true, Bool.false_eq_true,
    if_false, ite_false]
  simp only [h1]
  exact h2

theorem commit_fix_clean (r : GitRepo) (m : String) (hd : r.dirtyTree = false) :
    commit_fix r m = .error .noChanges := by
  simp [commit_fix, hd, throw, throwThe, MonadExceptOf.throw]

theorem applyOp_trace (r : GitRepo) (op : GitOp) :
    ∃ nc np, (r.applyOp op).commits = r.commits ++ nc ∧
      (r.applyOp op).pushes = r.pushes ++ np ∧
      (∀ p ∈ nc, protectedBranches.contains p.1 = false) ∧
      (∀ b ∈ np, protectedBranches.contains b = false) := by
  cases op with
  | commitAll m =>
    by_cases hp : protectedBranches.contains r.activeBranch
    · refine ⟨[], [], ?_, ?_, by simp, by simp⟩
      · simp [GitRepo.applyOp, commit_all_protected r m hp]
      · simp [GitRepo.applyOp, commit_all_protected r m hp]
    · have hp' : protectedBranches.contains r.activeBranch = false := by simpa using hp
      by_cases hd : r.dirtyTree
      · refine ⟨[(r.activeBranch, commitMarker ++ " " ++ m)], [], ?_, ?_, ?_, by simp⟩
        · simp [GitRepo.applyOp, commit_all_dirty r m hp' hd]
        · simp [GitRepo.applyOp, commit_all_dirty r m hp' hd]
        · intro p hpmem
          simp at hpmem
          subst hpmem
          exact hp'
      · have hd' : r.dirtyTree = false := by simpa using hd
        refine ⟨[], [], ?_, ?_, by simp, by simp⟩
        · simp [GitRepo.applyOp, commit_all_clean r m hp' hd']
        · simp [GitRepo.applyOp, commit_all_clean r m hp' hd']
  | pushBranch =>
    by_cases hp : protectedBranches.contains r.activeBranch
    · refine ⟨[], [], ?_, ?_, by simp, by simp⟩
      · simp [GitRepo.applyOp, push_protected r hp]
      · simp [GitRepo.applyOp, push_protected r hp]
    · have hp' : protectedBranches.contains r.activeBranch = false := by simpa using hp
      refine ⟨[], [r.activeBranch], ?_, ?_, by simp, ?_⟩
      · simp [GitRepo.applyOp, push_ok r hp']
      · simp [GitRepo.applyOp, push_ok r hp']
      · intro b hb
        simp at hb
        subst hb
        exact hp'
  | createBranch n =>
    by_cases hn : n ∈ protectedBranches
    · refine ⟨[], [], ?_, ?_, by simp, by simp⟩
      · simp [GitRepo.applyOp, GitRepo.create_branch, hn]
      · simp [GitRepo.applyOp, GitRepo.create_branch, hn]
    · refine ⟨[], [], ?_, ?_, by simp, by simp⟩
      · simp [GitRepo.applyOp, GitRepo.create_branch, hn]
      · simp [GitRepo.applyOp, GitRepo.create_branch, hn]
  | commitFix m =>
    by_cases hd : r.dirtyTree
    · by_cases hp : protectedBranches.contains r.activeBranch
      · have hfix : commit_fix r m = .error (.branchProtection r.activeBranch) := by
          simp only [commit_fix, hd, Bind.bind, Except.bind, Bool.not_true,
            Bool.false_eq_true, if_false, ite_false]
          simp [commit_all_protected r m hp]
        refine ⟨[], [], ?_, ?_, by simp, by simp⟩
        · simp [GitRepo.applyOp, hfix]
        · simp [GitRepo.applyOp, hfix]
      · have hp' : protectedBranches.contains r.activeBranch = false := by simpa using hp
        have hfix := commit_fix_dirty_unprotected r m hp' hd
        refine ⟨[(r.activeBranch, commitMarker ++ " " ++ m)], [r.activeBranch], ?_, ?_, ?_, ?_⟩
        · simp [GitRepo.applyOp, hfix]
        · simp [GitRepo.applyOp, hfix]
        · intro p hpmem
          simp at hpmem
          subst hpmem
          exact hp'
        · intro b hb
          simp at hb
          subst hb
          exact hp'
    · have hd' : r.dirtyTree = false := by simpa using hd
      refine ⟨[], [], ?_, ?_, by simp, by simp⟩
      · simp [GitRepo.applyOp, commit_fix_clean r m hd']
      · simp [GitRepo.applyOp, commit_fix_clean r m hd']
  | dirty =>
    exact ⟨[], [], by simp [GitRepo.applyOp], by simp [GitRepo.applyOp], by simp, by simp⟩

theorem applyOps_trace (r : GitRepo) (ops : List GitOp) :
    ∃ nc np, (r.applyOps ops).commits = r.commits ++ nc ∧
      (r.applyOps ops).pushes = r.pushes ++ np ∧
      (∀ p ∈ nc, protectedBranches.contains p.1 = false) ∧
      (∀ b ∈ np, protectedBranches.contains b = false) := by
  induction ops generalizing r with
  | nil => exact ⟨[], [], by simp [GitRepo.applyOps], by simp [GitRepo.applyOps], by simp, by simp⟩
  | cons op ops ih =>
    obtain ⟨nc1, np1, hc1, hp1, hnc1, hnp1⟩ := applyOp_trace r op
    obtain ⟨nc2, np2, hc2, hp2, hnc2, hnp2⟩ := ih (r.applyOp op)
    refine ⟨nc1 ++ nc2, np1 ++ np2, ?_, ?_, ?_, ?_⟩
    · simp [GitRepo.applyOps] at hc2 ⊢
      rw [hc2, hc1, List.append_assoc]
    · simp [GitRepo.applyOps] at hp2 ⊢
      rw [hp2, hp1, List.append_assoc]
    · intro p hpmem
      rcases List.mem_append.mp hpmem with h | h
      · exact hnc1 p h
      · exact hnc2 p h
    · intro b hb
      rcases List.mem_append.mp hb with h | h
      · exact hnp1 b h
      · exact hnp2 b h

/-- C4: on a protected active branch both commit_all and
push_current_branch raise the branch-protection error, and over any
sequence of operations every commit and every push the system records
lands on an unprotected branch. -/
theorem protected_branch_guard :
    (∀ (r : GitRepo) (msg : String),
        protectedBranches.contains r.activeBranch = true →
        r.commit_all msg = .error (.branchProtection r.activeBranch) ∧
        r.push_current_branch = .error (.branchProtection r.activeBranch)) ∧
    (∀ (r : GitRepo) (ops : List GitOp),
        ∃ nc np, (r.applyOps ops).commits = r.commits ++ nc ∧
          (r.applyOps ops).pushes = r.pushes ++ np ∧
          (∀ p ∈ nc, protectedBranches.contains p.1 = false) ∧
          (∀ b ∈ np, protectedBranches.contains b = false)) := by
  constructor
  · intro r msg hp
    exact ⟨commit_all_protected r msg hp, push_protected r hp⟩
  · intro r ops
    exact applyOps_trace r ops

/-- C4 witness: a repository sitting on main refuses both operations
and a concrete operation sequence starting on main creates no commit
and no push on a protected branch. -/
theorem protected_branch_guard_witness :
    GitRepo.commit_all ⟨"main", true, [], []⟩ "m" =
      .error (.branchProtection "main") ∧
    GitRepo.push_current_branch ⟨"main", true, [], []⟩ =
      .error (.branchProtection "main") := by
  have h := protected_branch_guard.1 ⟨"main", true, [], []⟩ "m" (by decide)
  exact h

/-- C5: committing through the git-committer node with a clean working
tree raises the no-changes error and records no commit; with a dirty
tree on an unprotected branch it commits with the [AI-AGENT] marker
prepended to the message and pushes the branch. -/
theorem commit_fix_guard :
    (∀ (r : GitRepo) (msg : String), r.dirtyTree = false →
        commit_fix r msg = .error .noChanges) ∧
    (∀ (r : GitRepo) (msg : String), r.dirtyTree = true →
        protectedBranches.contains r.activeBranch = false →
        commit_fix r msg = .ok ⟨r.activeBranch, false,
          r.commits ++ [(r.activeBranch, commitMarker ++ " " ++ msg)],
          r.pushes ++ [r.activeBranch]⟩) := by
  constructor
  · intro r msg hd
    exact commit_fix_clean r msg hd
  · intro r msg hd hp
    exact commit_fix_dirty_unprotected r msg hp hd

/-- C5 witness: concrete clean and dirty repositories. -/
theorem commit_fix_guard_witness :
    commit_fix ⟨"feature", false, [], []⟩ "m" = .error .noChanges ∧
    commit_fix ⟨"feature", true, [], []⟩ "m" =
      .ok ⟨"feature", false, [("feature", "[AI-AGENT] m")], ["feature"]⟩ := by
  constructor
  · exact commit_fix_guard.1 ⟨"feature", false, [], []⟩ "m" rfl
  · exact commit_fix_guard.2 ⟨"feature", true, [], []⟩ "m" rfl (by decide)

/-- C6: the integrations sandbox runner returns a structured result
with success false and a populated error description for a missing
repository directory, a timeout (preserving the partial output), a
missing executable, a subprocess fault, an OS fault and any unexpected
exception, never raising; the docker runner handles the same outcomes
inside its try block, but an exception in its fixture-synthesis phase
(for example os.listdir on a nonexistent repo_path) propagates to the
caller instead of being returned as a structured result. -/
theorem sandbox_runner_faults :
    (∀ (p : String) (t : Int) (proc : ProcOutcome),
        (run_pytest false p t proc).success = false ∧
        (run_pytest false p t proc).error ≠ none) ∧
    (∀ (p : String) (t : Int) (o e : Option String),
        (run_pytest true p t (.timedOut o e)).success = false ∧
        (run_pytest true p t (.timedOut o e)).error ≠ none ∧
        (run_pytest true p t (.timedOut o e)).stdout = o.getD "" ∧
        (run_pytest true p t (.timedOut o e)).stderr = e.getD "") ∧
    (∀ (p : String) (t : Int) (m : String),
        (run_pytest true p t .missingExe).success = false ∧
        (run_pytest true p t .missingExe).error ≠ none ∧
        (run_pytest true p t (.subprocessFault m)).success = false ∧
        (run_pytest true p t (.subprocessFault m)).error ≠ none ∧
        (run_pytest true p t (.osFault m)).success = false ∧
        (run_pytest true p t (.osFault m)).error ≠ none ∧
        (run_pytest true p t (.unexpectedFault m)).success = false ∧
        (run_pytest true p t (.unexpectedFault m)).error ≠ none) ∧
    (∀ (t : Int) (o e : Option String),
        run_pytest_in_docker .ok t (.timedOut o e) =
          .ok { sandboxBase with
                error := some ("Timeout after " ++ toString t ++ "s"),
                stdout := o.getD "", stderr := e.getD "" }) ∧
    (∀ (exc : String) (t : Int) (proc : ProcOutcome),
        run_pytest_in_docker (.raises exc) t proc = .error exc) := by
  refine ⟨?_, ?_, ?_, ?_, ?_⟩
  · intro p t proc
    exact ⟨rfl, by simp [run_pytest]⟩
  · intro p t o e
    exact ⟨rfl, by simp [run_pytest], rfl, rfl⟩
  · intro p t m
    refine ⟨rfl, by simp [run_pytest], rfl, by simp [run_pytest], rfl,
      by simp [run_pytest], rfl, by simp [run_pytest]⟩
  · intro t o e
    rfl
  · intro exc t proc
    rfl

theorem runGraph_step {α : Type} (env : GraphEnv α) (n : Nat) (node : GNode)
    (s : PipeState α) (tv cv : Nat) :
    runGraph env (n+1) node s tv cv =
      match routeAfter node (stepNode env node s tv cv).1 with
      | none => some ((stepNode env node s tv cv).1, (stepNode env node s tv cv).2.1)
      | some n' => runGraph env n n' (stepNode env node s tv cv).1
          (stepNode env node s tv cv).2.1 (stepNode env node s tv cv).2.2 := rfl

theorem should_retry_failure (m : RetryManager) :
    m.should_retry "failure" = !m.has_exceeded := by
  simp [RetryManager.should_retry]

theorem fastForward_fields (mr : Int) (n : Nat) :
    ((RetryManager.init mr).fastForward n).attempts = (n : Int) ∧
    ((RetryManager.init mr).fastForward n).max_retries = mr := by
  induction n with
  | zero => simp [RetryManager.fastForward, RetryManager.init]
  | succ k ih =>
    simp [RetryManager.fastForward, RetryManager.track_attempt, ih.1, ih.2]

theorem runTests_pass {α : Type} (env : GraphEnv α) (fuel : Nat) (s : PipeState α)
    (tv cv : Nat) (ht : env.testPassed tv = true) :
    ∃ sf, runGraph env (fuel + 1) .runTests s tv cv = some (sf, tv + 1) := by
  rw [runGraph_step]
  simp [stepNode, routeAfter, ht]

theorem runTests_ciPass {α : Type} (env : GraphEnv α) (fuel : Nat) (s : PipeState α)
    (tv cv : Nat) (ht : env.testPassed tv = false) (hc : env.ciSuccess cv = true) :
    ∃ sf, runGraph env (fuel + 7) .runTests s tv cv = some (sf, tv + 1) := by
  rw [show fuel + 7 = (fuel + 6) + 1 from rfl, runGraph_step]
  simp [stepNode, routeAfter, ht]
  rw [show fuel + 6 = (fuel + 5) + 1 from rfl, runGraph_step]
  simp [stepNode, routeAfter]
  rw [show fuel + 5 = (fuel + 4) + 1 from rfl, runGraph_step]
  simp [stepNode, routeAfter]
  rw [show fuel + 4 = (fuel + 3) + 1 from rfl, runGraph_step]
  simp [stepNode, routeAfter]
  rw [show fuel + 3 = (fuel + 2) + 1 from rfl, runGraph_step]
  simp [stepNode, routeAfter]
  rw [show fuel + 2 = (fuel + 1) + 1 from rfl, runGraph_step]
  simp [stepNode, routeAfter]
  rw [runGraph_step]
  simp [stepNode, routeAfter, hc]

theorem runTests_cycle {α : Type} (env : GraphEnv α) (fuel : Nat) (s : PipeState α)
    (tv cv : Nat) (ht : env.testPassed tv = false) (hc : env.ciSuccess cv = false) :
    ∃ s1, runGraph env (fuel + 8) .runTests s tv cv =
        runGraph env (fuel + 1) .retryDecision s1 (tv + 1) (cv + 1) ∧
      s1.iteration = s.iteration ∧ s1.maxRetries = s.maxRetries ∧
      s1.ciStatus = "failed" ∧ s1.finalStatus = s.finalStatus := by
  rw [show fuel + 8 = (fuel + 7) + 1 from rfl, runGraph_step]
  simp [stepNode, routeAfter, ht]
  rw [show fuel + 7 = (fuel + 6) + 1 from rfl, runGraph_step]
  simp [stepNode, routeAfter]
  rw [show fuel + 6 = (fuel + 5) + 1 from rfl, runGraph_step]
  simp [stepNode, routeAfter]
  rw [show fuel + 5 = (fuel + 4) + 1 from rfl, runGraph_step]
  simp [stepNode, routeAfter]
  rw [show fuel + 4 = (fuel + 3) + 1 from rfl, runGraph_step]
  simp [stepNode, routeAfter]
  rw [show fuel + 3 = (fuel + 2) + 1 from rfl, runGraph_step]
  simp [stepNode, routeAfter]
  rw [show fuel + 2 = (fuel + 1) + 1 from rfl, runGraph_step]
  simp [stepNode, routeAfter, hc]
  exact ⟨_, rfl, rfl, rfl, rfl, rfl⟩

theorem retry_deny {α : Type} (env : GraphEnv α) (fuel : Nat) (s : PipeState α)
    (tv cv : Nat)
    (hex : ((RetryManager.init s.maxRetries).fastForward s.iteration.toNat).has_exceeded
      = true) :
    ∃ sf, runGraph env (fuel + 1) .retryDecision s tv cv = some (sf, tv) := by
  rw [runGraph_step]
  simp [stepNode, routeAfter, nodeRetryDecision, should_retry_failure, hex]

theorem retry_grant {α : Type} (env : GraphEnv α) (fuel : Nat) (s : PipeState α)
    (tv cv : Nat)
    (hex : ((RetryManager.init s.maxRetries).fastForward s.iteration.toNat).has_exceeded
      = false)
    (hf : s.finalStatus ≠ some "failed") :
    ∃ s2, runGraph env (fuel + 1) .retryDecision s tv cv =
        runGraph env fuel .runTests s2 tv cv ∧
      s2.iteration = s.iteration + 1 ∧ s2.maxRetries = s.maxRetries ∧
      s2.finalStatus = s.finalStatus := by
  rw [runGraph_step]
  simp [stepNode, routeAfter, nodeRetryDecision, should_retry_failure, hex, hf]
  exact ⟨_, rfl, rfl, rfl, rfl⟩

theorem runTests_bound {α : Type} (env : GraphEnv α) :
    ∀ (d : Nat) (s : PipeState α) (tv cv : Nat),
      s.maxRetries - s.iteration ≤ (d : Int) →
      s.finalStatus ≠ some "failed" →
      ∃ sf vf, runGraph env (8*d+8) .runTests s tv cv = some (sf, vf) ∧ vf ≤ tv + d + 1 := by
  intro d
  induction d with
  | zero =>
    intro s tv cv hle hf
    by_cases ht : env.testPassed tv
    · obtain ⟨sf, hrun⟩ := runTests_pass env 7 s tv cv ht
      exact ⟨sf, tv + 1, hrun, by omega⟩
    · by_cases hc : env.ciSuccess cv
      · obtain ⟨sf, hrun⟩ := runTests_ciPass env 1 s tv cv (by simpa using ht) hc
        exact ⟨sf, tv + 1, hrun, by omega⟩
      · obtain ⟨s1, hrun, hit, hmax, _, _⟩ :=
          runTests_cycle env 0 s tv cv (by simpa using ht) (by simpa using hc)
        have hex : ((RetryManager.init s1.maxRetries).fastForward
            s1.iteration.toNat).has_exceeded = true := by
          have h1 := (fastForward_fields s1.maxRetries s1.iteration.toNat).1
          have h2 := (fastForward_fields s1.maxRetries s1.iteration.toNat).2
          have hsel : s1.iteration ≤ (s1.iteration.toNat : Int) :=
            Int.self_le_toNat s1.iteration
          simp only [RetryManager.has_exceeded, h1, h2, ge_iff_le, decide_eq_true_eq]
          rw [hit] at hsel
          rw [hmax, hit]
          push_cast at hle
          omega
        obtain ⟨sf, hrun2⟩ := retry_deny env 0 s1 (tv + 1) (cv + 1) hex
        refine ⟨sf, tv + 1, ?_, by omega⟩
        rw [show 8*0+8 = 0 + 8 from rfl, hrun, hrun2]
  | succ k ih =>
    intro s tv cv hle hf
    by_cases ht : env.testPassed tv
    · obtain ⟨sf, hrun⟩ := runTests_pass env (8*(k+1)+7) s tv cv ht
      exact ⟨sf, tv + 1, hrun, by omega⟩
    · by_cases hc : env.ciSuccess cv
      · obtain ⟨sf, hrun⟩ := runTests_ciPass env (8*(k+1)+1) s tv cv (by simpa using ht) hc
        refine ⟨sf, tv + 1, ?_, by omega⟩
        rw [show 8*(k+1)+8 = (8*(k+1)+1) + 7 from by omega] at hrun ⊢
        exact hrun
      · obtain ⟨s1, hrun, hit, hmax, _, hfin⟩ :=
          runTests_cycle env (8*k+8) s tv cv (by simpa using ht) (by simpa using hc)
        by_cases hex : ((RetryManager.init s1.maxRetries).fastForward
            s1.iteration.toNat).has_exceeded
        · obtain ⟨sf, hrun2⟩ := retry_deny env (8*k+8) s1 (tv + 1) (cv + 1) hex
          refine ⟨sf, tv + 1, ?_, by omega⟩
          rw [show 8*(k+1)+8 = (8*k+8) + 8 from by omega, hrun, hrun2]
        · have hf1 : s1.finalStatus ≠ some "failed" := by rw [hfin]; exact hf
          obtain ⟨s2, hrun2, hit2, hmax2, hfin2⟩ :=
            retry_grant env (8*k+8) s1 (tv + 1) (cv + 1) (by simpa using hex) hf1
          have hle2 : s2.maxRetries - s2.iteration ≤ (k : Int) := by
            rw [hit2, hmax2, hit, hmax]
            push_cast at hle ⊢
            omega
          have hf2 : s2.finalStatus ≠ some "failed" := by
            rw [hfin2, hfin]; exact hf
          obtain ⟨sf, vf, hrun3, hvf⟩ := ih s2 (tv + 1) (cv + 1) hle2 hf2
          refine ⟨sf, vf, ?_, by omega⟩
          rw [show 8*(k+1)+8 = (8*k+8) + 8 from by omega, hrun, hrun2, hrun3]

/-- C2: for a run started with max_retries = N (iteration 0, no final
status yet), the compiled healing graph reaches a terminal state
within fuel 8N+9 and visits the test-execution node at most N+1 times,
whatever the test outcomes, CI outcomes and payload updates are; and
the retry-decision node increments iteration by exactly one iff the
iteration is still below the ceiling, otherwise it sets final_status
to "failed" and the conditional edge after it resolves to END. -/
theorem healing_loop_bound {α : Type} (env : GraphEnv α) (N : Nat) (s0 : PipeState α)
    (hmax : s0.maxRetries = (N : Int)) (hit : s0.iteration = 0)
    (hfin : s0.finalStatus = none) :
    (∃ sf visits, runGraph env (8*N+9) .cloneRepo s0 0 0 = some (sf, visits) ∧
      visits ≤ N + 1) ∧
    (∀ s : PipeState α, 0 ≤ s.iteration →
      (((nodeRetryDecision env s).iteration = s.iteration + 1) ↔
        s.iteration < s.maxRetries) ∧
      (s.maxRetries ≤ s.iteration →
        (nodeRetryDecision env s).finalStatus = some "failed" ∧
        routeAfter .retryDecision (nodeRetryDecision env s) = none)) := by
  constructor
  · rw [show 8*N+9 = (8*N+8) + 1 from rfl, runGraph_step]
    simp only [stepNode, routeAfter]
    obtain ⟨sf, vf, hrun, hvf⟩ := runTests_bound env N
      { s0 with payload := env.payloadStep .cloneRepo s0 true } 0 0
      (by simp [hmax, hit]) (by simp [hfin])
    exact ⟨sf, vf, hrun, by omega⟩
  · intro s hpos
    have h1 := (fastForward_fields s.maxRetries s.iteration.toNat).1
    have h2 := (fastForward_fields s.maxRetries s.iteration.toNat).2
    have htn : (s.iteration.toNat : Int) = s.iteration := Int.toNat_of_nonneg hpos
    constructor
    · constructor
      · intro hinc
        by_contra hlt
        have hex : ((RetryManager.init s.maxRetries).fastForward
            s.iteration.toNat).has_exceeded = true := by
          simp only [RetryManager.has_exceeded, h1, h2, ge_iff_le, decide_eq_true_eq, htn]
          omega
        simp [nodeRetryDecision, should_retry_failure, hex] at hinc
      · intro hlt
        have hex : ((RetryManager.init s.maxRetries).fastForward
            s.iteration.toNat).has_exceeded = false := by
          simp only [RetryManager.has_exceeded, h2, h1, htn]
          simp
          omega
        simp [nodeRetryDecision, should_retry_failure, hex]
    · intro hge
      have hex : ((RetryManager.init s.maxRetries).fastForward
          s.iteration.toNat).has_exceeded = true := by
        simp only [RetryManager.has_exceeded, h1, h2, ge_iff_le, decide_eq_true_eq, htn]
        omega
      simp [nodeRetryDecision, should_retry_failure, hex, routeAfter]

/-- C2 witness: a concrete run with max_retries 1, failing tests and
failing CI terminates with at most 2 test-node visits; the second
conjunct applied at a concrete state. -/
theorem healing_loop_bound_witness :
    ((∃ sf visits,
        runGraph (α := Unit) ⟨fun _ => false, fun _ => false, fun _ _ _ => ()⟩
          (8*1+9) .cloneRepo ⟨0, (1 : Nat), "", none, ()⟩ 0 0 = some (sf, visits) ∧
        visits ≤ 1 + 1) ∧
      (∀ s : PipeState Unit, 0 ≤ s.iteration →
        (((nodeRetryDecision ⟨fun _ => false, fun _ => false, fun _ _ _ => ()⟩ s).iteration
            = s.iteration + 1) ↔ s.iteration < s.maxRetries) ∧
        (s.maxRetries ≤ s.iteration →
          (nodeRetryDecision ⟨fun _ => false, fun _ => false, fun _ _ _ => ()⟩ s).finalStatus
            = some "failed" ∧
          routeAfter .retryDecision
            (nodeRetryDecision ⟨fun _ => false, fun _ => false, fun _ _ _ => ()⟩ s) = none))) :=
  healing_loop_bound ⟨fun _ => false, fun _ => false, fun _ _ _ => ()⟩ 1
    ⟨0, (1 : Nat), "", none, ()⟩ rfl rfl rfl

theorem takeWhile_all {p : Char → Bool} {l : List Char} (h : ∀ x ∈ l, p x = true) :
    l.takeWhile p = l := by
  induction l with
  | nil => rfl
  | cons a t ih =>
    rw [List.takeWhile_cons, if_pos (h a (by simp))]
    rw [ih (fun x hx => h x (by simp [hx]))]

theorem takeWhile_stops {p : Char → Bool} {l r : List Char} {b : Char}
    (hl : ∀ x ∈ l, p x = true) (hb : p b = false) :
    (l ++ b :: r).takeWhile p = l := by
  induction l with
  | nil => simp [List.takeWhile_cons, hb]
  | cons a t ih =>
    rw [List.cons_append, List.takeWhile_cons, if_pos (hl a (by simp))]
    rw [ih (fun x hx => hl x (by simp [hx]))]

theorem drop_takeWhile_length {p : Char → Bool} (l : List Char) :
    l.drop (l.takeWhile p).length = l.dropWhile p := by
  have h := List.drop_left (l.takeWhile p) (l.dropWhile p)
  rwa [List.takeWhile_append_dropWhile] at h

theorem takeWhile_self_append {p : Char → Bool} (l : List Char) :
    l.takeWhile p ++ l.drop (l.takeWhile p).length = l := by
  rw [drop_takeWhile_length, List.takeWhile_append_dropWhile]

theorem tryMatch_sound {cs : List Char} {t : String × Nat × String} {rem : List Char}
    (h : tryMatch cs = some (t, rem)) :
    ∃ fl dl ml, t = (String.mk fl, digitsToNat dl, String.mk ml) ∧
      cs = fl ++ [':'] ++ dl ++ [':', ' '] ++ ml ++ rem ∧
      fl ≠ [] ∧ (∀ x ∈ fl, goodFileChar x = true) ∧
      dl ≠ [] ∧ (∀ x ∈ dl, x.isDigit = true) ∧
      ml ≠ [] ∧ (∀ x ∈ ml, x ≠ '\n') := by
  unfold tryMatch at h
  set f := cs.takeWhile goodFileChar with hf
  by_cases hfe : f.isEmpty
  · rw [if_pos hfe] at h; exact absurd h (by simp)
  · rw [if_neg hfe] at h
    have hcs : f ++ cs.drop f.length = cs := takeWhile_self_append cs
    rcases hdrop : cs.drop f.length with _ | ⟨c1, r1⟩
    · rw [hdrop] at h; exact absurd h (by simp)
    · rw [hdrop] at h
      dsimp only at h
      by_cases hc1 : c1 = ':'
      · rw [if_pos hc1] at h
        subst hc1
        set d := r1.takeWhile Char.isDigit with hd
        by_cases hde : d.isEmpty
        · rw [if_pos hde] at h; exact absurd h (by simp)
        · rw [if_neg hde] at h
          have hr1 : d ++ r1.drop d.length = r1 := takeWhile_self_append r1
          rcases hdrop2 : r1.drop d.length with _ | ⟨c2, r2'⟩
          · rw [hdrop2] at h; exact absurd h (by simp)
          · rcases r2' with _ | ⟨c3, r2⟩
            · rw [hdrop2] at h; exact absurd h (by simp)
            · rw [hdrop2] at h
              dsimp only at h
              by_cases hc23 : c2 = ':' ∧ c3 = ' '
              · rw [if_pos hc23] at h
                obtain ⟨hc2, hc3⟩ := hc23
                subst hc2; subst hc3
                set m := r2.takeWhile (fun c => c ≠ '\n') with hm
                by_cases hme : m.isEmpty
                · rw [if_pos hme] at h; exact absurd h (by simp)
                · rw [if_neg hme] at h
                  have hr2 : m ++ r2.drop m.length = r2 := takeWhile_self_append r2
                  have h' := Option.some.inj h
                  have h1 : (String.mk f, digitsToNat d, String.mk m) = t :=
                    congrArg Prod.fst h'
                  have h2 : r2.drop m.length = rem := congrArg Prod.snd h'
                  refine ⟨f, d, m, h1.symm, ?_, ?_, ?_, ?_, ?_, ?_, ?_⟩
                  · have e3 : r2 = m ++ rem := by rw [← h2]; exact hr2.symm
                    rw [← hcs, hdrop, ← hr1, hdrop2, e3]
                    simp [List.append_assoc]
                  · simpa using hfe
                  · intro x hx; exact List.mem_takeWhile_imp (hf ▸ hx)
                  · simpa using hde
                  · intro x hx; exact List.mem_takeWhile_imp (hd ▸ hx)
                  · simpa using hme
                  · intro x hx
                    have := List.mem_takeWhile_imp (hm ▸ hx)
                    simpa using this
              · rw [if_neg hc23] at h; exact absurd h (by simp)
      · rw [if_neg hc1] at h; exact absurd h (by simp)

theorem tryMatch_complete {cs : List Char} (h : matchDecomp cs) :
    (tryMatch cs).isSome = true := by
  obtain ⟨f, d, c, r, heq, hfne, hfgood, hdne, hdig, hc⟩ := h
  subst heq
  have hshape : f ++ [':'] ++ d ++ [':', ' '] ++ c :: r
      = f ++ ':' :: (d ++ ':' :: ' ' :: c :: r) := by simp
  rw [hshape]
  unfold tryMatch
  have htw : (f ++ ':' :: (d ++ ':' :: ' ' :: c :: r)).takeWhile goodFileChar = f :=
    takeWhile_stops hfgood (by decide)
  have hdrop : (f ++ ':' :: (d ++ ':' :: ' ' :: c :: r)).drop f.length
      = ':' :: (d ++ ':' :: ' ' :: c :: r) := List.drop_left f _
  simp only [htw, hdrop]
  rw [if_neg (by simpa using hfne)]
  rw [if_pos (by trivial)]
  have htw2 : (d ++ ':' :: ' ' :: c :: r).takeWhile Char.isDigit = d :=
    takeWhile_stops hdig (by decide)
  have hdrop2 : (d ++ ':' :: ' ' :: c :: r).drop d.length = ':' :: ' ' :: c :: r :=
    List.drop_left d _
  simp only [htw2, hdrop2]
  rw [if_neg (by simpa using hdne)]
  rw [if_pos (by exact ⟨by trivial, by trivial⟩)]
  have htw3 : (c :: r).takeWhile (fun x => x ≠ '\n') = c :: r.takeWhile (fun x => x ≠ '\n') := by
    rw [List.takeWhile_cons, if_pos (by simpa using hc)]
  simp only [htw3]
  rw [if_neg (by simp)]
  simp

theorem tryMatch_rem_lt {cs : List Char} {t : String × Nat × String} {rem : List Char}
    (h : tryMatch cs = some (t, rem)) : rem.length < cs.length := by
  obtain ⟨fl, dl, ml, -, hcs, hfne, -, hdne, -, hmne, -⟩ := tryMatch_sound h
  rw [hcs]
  have h1 := List.length_pos.mpr hfne
  simp [List.length_append]
  omega

theorem scanAux_fuel : ∀ (f1 f2 : Nat) (cs : List Char),
    cs.length ≤ f1 → cs.length ≤ f2 → scanAux f1 cs = scanAux f2 cs := by
  intro f1
  induction f1 with
  | zero =>
    intro f2 cs h1 h2
    have hnil : cs = [] := List.eq_nil_of_length_eq_zero (by omega)
    subst hnil
    cases f2 <;> simp [scanAux]
  | succ k ih =>
    intro f2 cs h1 h2
    cases cs with
    | nil => cases f2 <;> simp [scanAux]
    | cons c rest =>
      cases f2 with
      | zero => simp at h2
      | succ g =>
        simp only [scanAux]
        cases htm : tryMatch (c :: rest) with
        | none =>
          simp at h1 h2
          exact ih g rest (by omega) (by omega)
        | some pr =>
          obtain ⟨r, rem⟩ := pr
          have hlt := tryMatch_rem_lt htm
          simp at h1 h2 hlt
          dsimp only
          rw [ih g rem (by omega) (by omega)]

theorem scanFailures_cons (c : Char) (rest : List Char) :
    scanFailures (c :: rest) =
      match tryMatch (c :: rest) with
      | some (r, rem) => r :: scanFailures rem
      | none => scanFailures rest := by
  unfold scanFailures
  simp only [List.length_cons, scanAux]
  cases htm : tryMatch (c :: rest) with
  | none => rfl
  | some pr =>
    obtain ⟨r, rem⟩ := pr
    have hlt := tryMatch_rem_lt htm
    simp at hlt
    dsimp only
    rw [scanAux_fuel rest.length rem.length rem (by omega) (by omega)]

theorem matchDecomp_not_nil : ¬ matchDecomp [] := by
  rintro ⟨f, d, c, r, heq, hf, -⟩
  have hl := congrArg List.length heq
  simp [List.length_append] at hl
  omega

theorem tryMatch_some_decomp {cs : List Char} (h : (tryMatch cs).isSome = true) :
    matchDecomp cs := by
  rw [Option.isSome_iff_exists] at h
  obtain ⟨⟨t, rem⟩, htm⟩ := h
  obtain ⟨fl, dl, ml, -, hcs, hfne, hfgood, hdne, hdig, hmne, hml⟩ := tryMatch_sound htm
  cases ml with
  | nil => exact absurd rfl hmne
  | cons m0 mrest =>
    refine ⟨fl, dl, m0, mrest ++ rem, ?_, hfne, hfgood, hdne, hdig, hml m0 (by simp)⟩
    rw [hcs]
    simp [List.append_assoc]

theorem scan_empty_iff (cs : List Char) :
    scanFailures cs = [] ↔ ∀ i, ¬ matchDecomp (cs.drop i) := by
  induction cs with
  | nil =>
    refine ⟨fun _ i => ?_, fun _ => rfl⟩
    rw [List.drop_nil]
    exact matchDecomp_not_nil
  | cons c rest ih =>
    rw [scanFailures_cons]
    cases htm : tryMatch (c :: rest) with
    | some pr =>
      obtain ⟨r, rem⟩ := pr
      dsimp only
      constructor
      · intro habs
        exact absurd habs (by simp)
      · intro hall
        have hdec : matchDecomp (c :: rest) := tryMatch_some_decomp (by simp [htm])
        have h0 := hall 0
        rw [List.drop_zero] at h0
        exact absurd hdec h0
    | none =>
      dsimp only
      rw [ih]
      constructor
      · intro hall i
        cases i with
        | zero =>
          rw [List.drop_zero]
          intro hdec
          have := tryMatch_complete hdec
          simp [htm] at this
        | succ j =>
          rw [List.drop_succ_cons]
          exact hall j
      · intro hall i
        have := hall (i + 1)
        rwa [List.drop_succ_cons] at this

theorem scanAux_records_sound : ∀ (fuel : Nat) (cs : List Char) (t : String × Nat × String),
    t ∈ scanAux fuel cs →
    ∃ fl dl ml, t = (String.mk fl, digitsToNat dl, String.mk ml) ∧
      fl ≠ [] ∧ (∀ x ∈ fl, goodFileChar x = true) ∧
      dl ≠ [] ∧ (∀ x ∈ dl, x.isDigit = true) ∧
      ml ≠ [] ∧ (∀ x ∈ ml, x ≠ '\n') ∧
      (fl ++ [':'] ++ dl ++ [':', ' '] ++ ml) <:+: cs := by
  intro fuel
  induction fuel with
  | zero => intro cs t ht; simp [scanAux] at ht
  | succ k ih =>
    intro cs t ht
    cases cs with
    | nil => simp [scanAux] at ht
    | cons c rest =>
      simp only [scanAux] at ht
      cases htm : tryMatch (c :: rest) with
      | some pr =>
        obtain ⟨r, rem⟩ := pr
        rw [htm] at ht
        dsimp only at ht
        rcases List.mem_cons.mp ht with hr | hmem
        · obtain ⟨fl, dl, ml, hrec, hcs, h3, h4, h5, h6, h7, h8⟩ := tryMatch_sound htm
          refine ⟨fl, dl, ml, hr ▸ hrec, h3, h4, h5, h6, h7, h8, ⟨[], rem, ?_⟩⟩
          rw [hcs]
          simp [List.append_assoc]
        · obtain ⟨fl, dl, ml, hrec, h3, h4, h5, h6, h7, h8, hinf⟩ := ih rem t hmem
          refine ⟨fl, dl, ml, hrec, h3, h4, h5, h6, h7, h8, ?_⟩
          obtain ⟨u, v, huv⟩ := hinf
          obtain ⟨fl', dl', ml', -, hcs, -⟩ := tryMatch_sound htm
          refine ⟨fl' ++ [':'] ++ dl' ++ [':', ' '] ++ ml' ++ u, v, ?_⟩
          rw [hcs, ← huv]
          simp [List.append_assoc]
      | none =>
        rw [htm] at ht
        dsimp only at ht
        obtain ⟨fl, dl, ml, hrec, h3, h4, h5, h6, h7, h8, hinf⟩ := ih rest t ht
        refine ⟨fl, dl, ml, hrec, h3, h4, h5, h6, h7, h8, ?_⟩
        obtain ⟨u, v, huv⟩ := hinf
        exact ⟨c :: u, v, by rw [← huv]; simp⟩

/-- C7: on a failed run the extractor appends at least one record; the
scan finds nothing exactly when no position of the raw text matches
the ([^:\s\n]+):(\d+): (.+) pattern; with no match exactly one
fallback record (file unknown, line 0, first 500 characters) is
appended; otherwise one record per match is appended, carrying the
match's file and line groups and its message group stripped (so the
stored message may be empty when the group is all whitespace), and
every match is a nonempty path run, a colon, a nonempty digit run, a
colon and a space, and a nonempty newline-free message group
occurring inside the raw text. -/
theorem failure_extractor_contract :
    (∀ (prev : List FailureRec) (raw : String) (iter : Int),
        ∃ recs, extractFailures prev raw iter = prev ++ recs ∧ recs ≠ []) ∧
    (∀ raw : String,
        scanFailures raw.data = [] ↔ ∀ i, ¬ matchDecomp (raw.data.drop i)) ∧
    (∀ (prev : List FailureRec) (raw : String) (iter : Int),
        scanFailures raw.data = [] →
        extractFailures prev raw iter =
          prev ++ [⟨"unknown", 0, String.mk (raw.data.take 500), iter⟩]) ∧
    (∀ (prev : List FailureRec) (raw : String) (iter : Int),
        scanFailures raw.data ≠ [] →
        extractFailures prev raw iter =
          prev ++ (scanFailures raw.data).map
            (fun t => ⟨t.1, t.2.1, String.mk (pyStrip t.2.2.data), iter⟩)) ∧
    (∀ (raw : String) (t : String × Nat × String), t ∈ scanFailures raw.data →
        ∃ fl dl ml, t = (String.mk fl, digitsToNat dl, String.mk ml) ∧
          fl ≠ [] ∧ (∀ x ∈ fl, goodFileChar x = true) ∧
          dl ≠ [] ∧ (∀ x ∈ dl, x.isDigit = true) ∧
          ml ≠ [] ∧ (∀ x ∈ ml, x ≠ '\n') ∧
          (fl ++ [':'] ++ dl ++ [':', ' '] ++ ml) <:+: raw.data) := by
  refine ⟨?_, ?_, ?_, ?_, ?_⟩
  · intro prev raw iter
    unfold extractFailures
    by_cases hfound : (scanFailures raw.data).isEmpty
    · rw [if_pos hfound]
      exact ⟨_, rfl, by simp⟩
    · rw [if_neg hfound]
      refine ⟨_, rfl, ?_⟩
      simp only [ne_eq, List.map_eq_nil_iff]
      simpa using hfound
  · intro raw
    exact scan_empty_iff raw.data
  · intro prev raw iter hempty
    unfold extractFailures
    rw [if_pos (by simp [hempty])]
  · intro prev raw iter hne
    unfold extractFailures
    rw [if_neg (by simpa using hne)]
  · intro raw t ht
    exact scanAux_records_sound raw.data.length raw.data t ht

/-- C7 witness: unmatchable text yields exactly the fallback record;
a matching line yields its parsed record with the message group
(here " boom ") stored stripped. -/
theorem failure_extractor_contract_witness :
    extractFailures [] "garbage" 0 =
      [⟨"unknown", 0, "garbage", 0⟩] ∧
    extractFailures [] "a.py:3:  boom " 0 = [⟨"a.py", 3, "boom", 0⟩] := by
  constructor
  · have h := failure_extractor_contract.2.2.1 [] "garbage" 0 (by decide)
    simpa using h
  · have h := failure_extractor_contract.2.2.2.1 [] "a.py:3:  boom " 0 (by decide)
    rw [h]
    decide

theorem collapseU_cons_ne {a : Char} (x : List Char) (ha : a ≠ '_') :
    collapseU (a :: x) = a :: collapseU x := by
  cases x with
  | nil => simp [collapseU]
  | cons b y =>
    rw [collapseU]
    rw [if_neg (by simp [ha])]

theorem collapseU_underscore (m : List Char) :
    collapseU ('_' :: m) = '_' :: collapseU (m.dropWhile (fun c => c = '_')) := by
  induction m with
  | nil => simp [collapseU]
  | cons b y ih =>
    by_cases hb : b = '_'
    · subst hb
      rw [collapseU, if_pos (by simp), ih]
      simp [List.dropWhile_cons]
    · rw [collapseU, if_neg (by simp [hb])]
      rw [List.dropWhile_cons, if_neg (by simp [hb])]

theorem collapseU_run_append {run : List Char} (x : List Char)
    (h : ∀ a ∈ run, a ≠ '_') : collapseU (run ++ x) = run ++ collapseU x := by
  induction run with
  | nil => simp
  | cons a rest ih =>
    rw [List.cons_append]
    rw [collapseU_cons_ne _ (h a (by simp))]
    rw [ih (fun b hb => h b (by simp [hb]))]
    rfl

theorem collapseU_gap_append {g : List Char} (y : List Char)
    (hall : ∀ a ∈ g, a = '_') (hne : g ≠ [])
    (hy : y.dropWhile (fun c => c = '_') = y) :
    collapseU (g ++ y) = '_' :: collapseU y := by
  cases g with
  | nil => exact absurd rfl hne
  | cons a g' =>
    have ha : a = '_' := hall a (by simp)
    subst ha
    rw [List.cons_append, collapseU_underscore]
    congr 1
    rw [List.dropWhile_append]
    have hg' : (g'.dropWhile (fun c => c = '_')).isEmpty = true := by
      rw [List.isEmpty_iff, List.dropWhile_eq_nil_iff]
      intro x hx
      simp [hall x (by simp [hx])]
    rw [if_pos hg', hy]

theorem rstripU_append (a b : List Char) :
    rstripU (a ++ b) = if rstripU b = [] then rstripU a else a ++ rstripU b := by
  unfold rstripU
  rw [List.reverse_append, List.dropWhile_append]
  by_cases hb : List.dropWhile (fun c => decide (c = '_')) b.reverse = []
  · rw [if_pos (by simp [List.isEmpty_iff, hb]), if_pos (by simp [hb])]
  · rw [if_neg (by simp [List.isEmpty_iff, hb]), if_neg (by simp [hb])]
    rw [List.reverse_append, List.reverse_reverse]

theorem rstripU_no_underscore {l : List Char} (h : ∀ c ∈ l, c ≠ '_') :
    rstripU l = l := by
  unfold rstripU
  have : l.reverse.dropWhile (fun c => c = '_') = l.reverse := by
    cases hrev : l.reverse with
    | nil => simp
    | cons a t =>
      rw [List.dropWhile_cons, if_neg]
      simp only [decide_eq_true_eq]
      have : a ∈ l := by
        rw [← List.mem_reverse, hrev]
        simp
      exact h a this
  rw [this, List.reverse_reverse]

theorem stripU_cons_underscore (z : List Char) : stripU ('_' :: z) = stripU z := by
  unfold stripU
  rw [List.dropWhile_cons, if_pos (by simp)]

theorem stripU_head_ne {a : Char} (z : List Char) (ha : a ≠ '_') :
    stripU (a :: z) = rstripU (a :: z) := by
  unfold stripU
  rw [List.dropWhile_cons, if_neg (by simpa using ha)]

theorem stripU_no_underscore {l : List Char} (h : ∀ c ∈ l, c ≠ '_') :
    stripU l = l := by
  cases l with
  | nil => rfl
  | cons a z =>
    rw [stripU_head_ne z (h a (by simp))]
    exact rstripU_no_underscore h

theorem stripU_collapseU_dropWhile (m : List Char) :
    stripU (collapseU (m.dropWhile (fun c => c = '_'))) = stripU (collapseU m) := by
  cases m with
  | nil => rfl
  | cons b y =>
    by_cases hb : b = '_'
    · subst hb
      rw [List.dropWhile_cons, if_pos (by simp)]
      rw [collapseU_underscore, stripU_cons_underscore]
    · rw [List.dropWhile_cons, if_neg (by simpa using hb)]

theorem alnumRuns_cons_alnum {c : Char} (t : List Char) (h : isUpperAlnum c = true) :
    alnumRuns (c :: t) =
      (c :: t.takeWhile isUpperAlnum) ::
        alnumRuns ((t.dropWhile isUpperAlnum).dropWhile (fun x => ¬ isUpperAlnum x)) := by
  rw [alnumRuns]
  rw [if_pos h]

theorem alnumRuns_cons_not {c : Char} (t : List Char) (h : isUpperAlnum c = false) :
    alnumRuns (c :: t) = alnumRuns t := by
  rw [alnumRuns]
  rw [if_neg (by simp [h])]

theorem alnumRuns_nil : alnumRuns [] = [] := by
  rw [alnumRuns]

theorem alnumRuns_all_not {l : List Char} (h : ∀ c ∈ l, isUpperAlnum c = false) :
    alnumRuns l = [] := by
  induction l with
  | nil => exact alnumRuns_nil
  | cons c t ih =>
    rw [alnumRuns_cons_not t (h c (by simp))]
    exact ih (fun x hx => h x (by simp [hx]))

theorem joinRuns_cons_ne {r : List Char} {rs : List (List Char)} (h : rs ≠ []) :
    joinRuns (r :: rs) = r ++ '_' :: joinRuns rs := by
  cases rs with
  | nil => exact absurd rfl h
  | cons a b =>
    rw [joinRuns]
    simp

theorem joinRuns_first_ne {c : Char} {w : List Char} {rs : List (List Char)} :
    joinRuns ((c :: w) :: rs) ≠ [] := by
  cases rs with
  | nil => simp [joinRuns]
  | cons a b =>
    rw [joinRuns_cons_ne (by simp)]
    simp

theorem alnum_ne_underscore {x : Char} (h : isUpperAlnum x = true) : x ≠ '_' := by
  intro he
  subst he
  simp [isUpperAlnum] at h

theorem map_toUnder_id {r : List Char} (h : ∀ x ∈ r, isUpperAlnum x = true) :
    r.map toUnder = r := by
  induction r with
  | nil => rfl
  | cons a rest ih =>
    rw [List.map_cons]
    rw [show toUnder a = a from by simp [toUnder, h a (by simp)]]
    rw [ih (fun x hx => h x (by simp [hx]))]

theorem collapseU_nil : collapseU [] = [] := by
  rw [collapseU]

theorem head_of_dropWhile_eq_cons {p : Char → Bool} {l r : List Char} {f : Char}
    (h : l.dropWhile p = f :: r) : p f = false := by
  induction l with
  | nil => simp at h
  | cons a t ih =>
    rw [List.dropWhile_cons] at h
    by_cases hp : p a
    · rw [if_pos hp] at h
      exact ih h
    · rw [if_neg hp] at h
      injection h with h1 h2
      subst h1
      simpa using hp

theorem sanitize_core_eq (l : List Char) :
    stripU (collapseU (l.map toUnder)) = joinRuns (alnumRuns l) := by
  induction l using alnumRuns.induct with
  | case1 =>
    rw [List.map_nil, collapseU_nil, alnumRuns_nil]
    rfl
  | case2 c t h ih =>
    rw [alnumRuns_cons_alnum t h]
    have htc : toUnder c = c := by simp [toUnder, h]
    have htwall : ∀ x ∈ t.takeWhile isUpperAlnum, isUpperAlnum x = true :=
      fun x hx => List.mem_takeWhile_imp hx
    have hrunall : ∀ a ∈ c :: t.takeWhile isUpperAlnum, a ≠ '_' := by
      intro a ha
      rcases List.mem_cons.mp ha with h1 | h1
      · subst h1; exact alnum_ne_underscore h
      · exact alnum_ne_underscore (htwall a h1)
    have hcol : collapseU ((c :: t).map toUnder) =
        (c :: t.takeWhile isUpperAlnum) ++
          collapseU ((t.dropWhile isUpperAlnum).map toUnder) := by
      rw [List.map_cons, htc]
      conv_lhs =>
        rw [show t = t.takeWhile isUpperAlnum ++ t.dropWhile isUpperAlnum from
          (List.takeWhile_append_dropWhile isUpperAlnum t).symm]
      rw [List.map_append, map_toUnder_id htwall, ← List.cons_append]
      exact collapseU_run_append _ hrunall
    rw [hcol]
    rcases htd : t.dropWhile isUpperAlnum with _ | ⟨e, td'⟩
    · rw [List.map_nil, collapseU_nil, List.append_nil]
      rw [stripU_no_underscore hrunall]
      rw [List.dropWhile_nil, alnumRuns_nil]
      rfl
    · have he : isUpperAlnum e = false := head_of_dropWhile_eq_cons htd
      rw [← htd]
      have hgsplit : (t.dropWhile isUpperAlnum).takeWhile (fun x => ¬ isUpperAlnum x) ++
          (t.dropWhile isUpperAlnum).dropWhile (fun x => ¬ isUpperAlnum x) =
          t.dropWhile isUpperAlnum :=
        List.takeWhile_append_dropWhile _ _
      have hgapall : ∀ x ∈ (t.dropWhile isUpperAlnum).takeWhile (fun x => ¬ isUpperAlnum x),
          isUpperAlnum x = false := by
        intro x hx
        have := List.mem_takeWhile_imp hx
        simpa using this
      have hgapne : (t.dropWhile isUpperAlnum).takeWhile (fun x => ¬ isUpperAlnum x) ≠ [] := by
        rw [htd, List.takeWhile_cons, if_pos (by simp [he])]
        simp
      have hmapgap : ∀ a ∈ ((t.dropWhile isUpperAlnum).takeWhile
          (fun x => ¬ isUpperAlnum x)).map toUnder, a = '_' := by
        intro a ha
        obtain ⟨x, hx, hxa⟩ := List.mem_map.mp ha
        rw [← hxa]
        simp [toUnder, hgapall x hx]
      have hy : (((t.dropWhile isUpperAlnum).dropWhile
          (fun x => ¬ isUpperAlnum x)).map toUnder).dropWhile (fun c => c = '_') =
          ((t.dropWhile isUpperAlnum).dropWhile (fun x => ¬ isUpperAlnum x)).map toUnder := by
        rcases hr2 : (t.dropWhile isUpperAlnum).dropWhile (fun x => ¬ isUpperAlnum x)
          with _ | ⟨f, r'⟩
        · simp
        · have hf' : isUpperAlnum f = true := by
            simpa using head_of_dropWhile_eq_cons hr2
          rw [List.map_cons]
          rw [show toUnder f = f from by simp [toUnder, hf']]
          rw [List.dropWhile_cons, if_neg (by simpa using alnum_ne_underscore hf')]
      have hmap2 : (t.dropWhile isUpperAlnum).map toUnder =
          ((t.dropWhile isUpperAlnum).takeWhile (fun x => ¬ isUpperAlnum x)).map toUnder ++
          ((t.dropWhile isUpperAlnum).dropWhile (fun x => ¬ isUpperAlnum x)).map toUnder := by
        rw [← List.map_append, hgsplit]
      have hgapcol : collapseU ((t.dropWhile isUpperAlnum).map toUnder) =
          '_' :: collapseU (((t.dropWhile isUpperAlnum).dropWhile
            (fun x => ¬ isUpperAlnum x)).map toUnder) := by
        rw [hmap2]
        exact collapseU_gap_append _ hmapgap (by simpa using hgapne) hy
      rw [hgapcol]
      rw [List.cons_append, stripU_head_ne _ (alnum_ne_underscore h), ← List.cons_append]
      rw [show ('_' :: collapseU (((t.dropWhile isUpperAlnum).dropWhile
        (fun x => ¬ isUpperAlnum x)).map toUnder)) = ['_'] ++ collapseU
        (((t.dropWhile isUpperAlnum).dropWhile (fun x => ¬ isUpperAlnum x)).map toUnder)
        from rfl]
      rw [← List.append_assoc]
      rw [rstripU_append]
      rcases hr2 : (t.dropWhile isUpperAlnum).dropWhile (fun x => ¬ isUpperAlnum x)
        with _ | ⟨f, r'⟩
      · rw [List.map_nil, collapseU_nil]
        rw [if_pos (by decide)]
        rw [rstripU_append]
        rw [if_pos (by decide)]
        rw [rstripU_no_underscore hrunall]
        rw [alnumRuns_nil]
        rfl
      · have hf' : isUpperAlnum f = true := by
          simpa using head_of_dropWhile_eq_cons hr2
        have hfu : toUnder f = f := by simp [toUnder, hf']
        have hXcol : collapseU ((f :: r').map toUnder) = f :: collapseU (r'.map toUnder) := by
          rw [List.map_cons, hfu]
          exact collapseU_cons_ne _ (alnum_ne_underscore hf')
        rw [hr2] at ih
        have hse : stripU (collapseU ((f :: r').map toUnder)) =
            rstripU (collapseU ((f :: r').map toUnder)) := by
          rw [hXcol]
          exact stripU_head_ne _ (alnum_ne_underscore hf')
        have hrX : rstripU (collapseU ((f :: r').map toUnder)) =
            joinRuns (alnumRuns (f :: r')) := by
          rw [← hse]
          exact ih
        have hansne : alnumRuns (f :: r') ≠ [] := by
          rw [alnumRuns_cons_alnum r' hf']
          simp
        have hJne : joinRuns (alnumRuns (f :: r')) ≠ [] := by
          rw [alnumRuns_cons_alnum r' hf']
          exact joinRuns_first_ne
        rw [if_neg (by rw [hrX]; exact hJne)]
        rw [hrX]
        rw [joinRuns_cons_ne hansne]
        simp
  | case3 c t h ih =>
    have htc : toUnder c = '_' := by simp [toUnder, h]
    rw [alnumRuns_cons_not t (by simpa using h)]
    rw [List.map_cons, htc, collapseU_underscore, stripU_cons_underscore]
    rw [stripU_collapseU_dropWhile]
    exact ih

theorem space_not_alnum {c : Char} (h : pyIsSpace c = true) : isUpperAlnum c = false := by
  simp only [pyIsSpace, Bool.or_eq_true, decide_eq_true_eq] at h
  rcases h with ((((h | h) | h) | h) | h) | h <;> subst h <;> decide

theorem alnumRuns_lstrip (l : List Char) :
    alnumRuns (l.dropWhile pyIsSpace) = alnumRuns l := by
  induction l with
  | nil => rfl
  | cons c t ih =>
    rw [List.dropWhile_cons]
    by_cases hc : pyIsSpace c
    · rw [if_pos hc, ih, alnumRuns_cons_not t (space_not_alnum hc)]
    · rw [if_neg hc]

theorem alnumRuns_rdrop (m : List Char) (ws : List Char)
    (hws : ∀ c ∈ ws, isUpperAlnum c = false) :
    alnumRuns (m ++ ws) = alnumRuns m := by
  induction m using alnumRuns.induct with
  | case1 =>
    rw [List.nil_append, alnumRuns_nil]
    exact alnumRuns_all_not hws
  | case2 c t h ih =>
    rw [List.cons_append]
    rw [alnumRuns_cons_alnum _ h, alnumRuns_cons_alnum t h]
    by_cases hall : (t.takeWhile isUpperAlnum).length = t.length
    · have hdnil : t.dropWhile isUpperAlnum = [] := by
        have hlen := congrArg List.length (List.takeWhile_append_dropWhile isUpperAlnum t)
        rw [List.length_append, hall] at hlen
        have : (t.dropWhile isUpperAlnum).length = 0 := by omega
        exact List.eq_nil_of_length_eq_zero this
      have htfull : t.takeWhile isUpperAlnum = t := by
        have := List.takeWhile_append_dropWhile isUpperAlnum t
        rwa [hdnil, List.append_nil] at this
      have htkw : (t ++ ws).takeWhile isUpperAlnum = t := by
        rw [List.takeWhile_append, if_pos hall]
        have hwsnil : ws.takeWhile isUpperAlnum = [] := by
          cases ws with
          | nil => rfl
          | cons w ws' =>
            rw [List.takeWhile_cons, if_neg (by simp [hws w (by simp)])]
        rw [hwsnil, List.append_nil]
      have hdw : (t ++ ws).dropWhile isUpperAlnum = ws := by
        rw [List.dropWhile_append, if_pos (by simp [hdnil])]
        cases ws with
        | nil => rfl
        | cons w ws' =>
          rw [List.dropWhile_cons, if_neg (by simp [hws w (by simp)])]
      rw [htkw, htfull, hdw, hdnil]
      congr 1
      rw [show ws.dropWhile (fun x => ¬ isUpperAlnum x) = [] from by
        rw [List.dropWhile_eq_nil_iff]
        intro x hx
        simp [hws x hx]]
      rw [List.dropWhile_nil]
    · have htkw : (t ++ ws).takeWhile isUpperAlnum = t.takeWhile isUpperAlnum := by
        rw [List.takeWhile_append, if_neg hall]
      have hdne : t.dropWhile isUpperAlnum ≠ [] := by
        intro hnil
        have hlen := congrArg List.length (List.takeWhile_append_dropWhile isUpperAlnum t)
        rw [List.length_append, hnil] at hlen
        simp at hlen
        exact hall hlen
      have hdw : (t ++ ws).dropWhile isUpperAlnum = t.dropWhile isUpperAlnum ++ ws := by
        rw [List.dropWhile_append, if_neg (by simpa using hdne)]
      rw [htkw, hdw]
      congr 1
      rw [List.dropWhile_append]
      by_cases hinner : ((t.dropWhile isUpperAlnum).dropWhile
          (fun x => ¬ isUpperAlnum x)).isEmpty
      · rw [if_pos hinner]
        rw [show ws.dropWhile (fun x => ¬ isUpperAlnum x) = [] from by
          rw [List.dropWhile_eq_nil_iff]
          intro x hx
          simp [hws x hx]]
        rw [List.isEmpty_iff] at hinner
        rw [hinner]
      · rw [if_neg hinner]
        exact ih
  | case3 c t h ih =>
    rw [List.cons_append]
    rw [alnumRuns_cons_not _ (by simpa using h), alnumRuns_cons_not t (by simpa using h)]
    exact ih

theorem alnumRuns_rstrip (l : List Char) :
    alnumRuns (pyRstrip l) = alnumRuns l := by
  have hsplit : pyRstrip l ++ (l.reverse.takeWhile pyIsSpace).reverse = l := by
    unfold pyRstrip
    rw [← List.reverse_append, List.takeWhile_append_dropWhile, List.reverse_reverse]
  conv_rhs => rw [← hsplit]
  rw [alnumRuns_rdrop]
  intro c hc
  rw [List.mem_reverse] at hc
  exact space_not_alnum (List.mem_takeWhile_imp hc)

theorem alnumRuns_pyStrip (l : List Char) :
    alnumRuns (pyStrip l) = alnumRuns l := by
  unfold pyStrip pyLstrip
  rw [alnumRuns_rstrip, alnumRuns_lstrip]

theorem sanitize_eq_spec (value : String) : sanitize value = sanitizeSpec value := by
  unfold sanitize sanitizeSpec
  rw [sanitize_core_eq, alnumRuns_pyStrip]

/-- C9 counterexample: the branch generator produces
TEAM_LEAD_AI_FIX for team "team" and leader "lead", but the validator
rejects exactly that name, because it checks against the different
convention fix/team-lead of guard.generate_branch. -/
theorem branch_validator_mismatch :
    generate_branch "team" "lead" = some "TEAM_LEAD_AI_FIX" ∧
    validate_branch "team" "lead" "TEAM_LEAD_AI_FIX" = false ∧
    guardGenerateBranch "team" "lead" = "fix/team-lead" ∧
    validate_branch "team" "lead" "fix/team-lead" = true := by
  refine ⟨by decide, by decide, by decide, by decide⟩

/-- C9 amended: the generator is deterministic and, for identifiers
that are not whitespace-only, returns the uppercased identifiers with
each maximal alphanumeric run kept and every maximal run of
non-alphanumeric characters collapsed to a single separating
underscore (runs at either end disappear), joined and suffixed with
_AI_FIX; the validator, however, accepts a branch exactly when it
equals guard.generate_branch of the team and leader, which lowercases
and replaces each non-alphanumeric character with a dash under a fix/
marker, not the generator output. -/
theorem branch_naming_characterisation :
    (∀ team leader : String,
        (pyStrip team.data).isEmpty = false → (pyStrip leader.data).isEmpty = false →
        generate_branch team leader =
          some (String.mk (sanitizeSpec team) ++ "_" ++
            String.mk (sanitizeSpec leader) ++ "_AI_FIX")) ∧
    (∀ team leader branch : String,
        validate_branch team leader branch = true ↔
          branch = guardGenerateBranch team leader) := by
  constructor
  · intro team leader ht hl
    unfold generate_branch
    rw [if_neg (by simp [ht]), if_neg (by simp [hl])]
    rw [sanitize_eq_spec, sanitize_eq_spec]
  · intro team leader branch
    unfold validate_branch
    simp

/-- C9 witness: the amended characterisation applied to concrete
identifiers. -/
theorem branch_naming_characterisation_witness :
    generate_branch "Team Rocket!" "ash k." =
      some (String.mk (sanitizeSpec "Team Rocket!") ++ "_" ++
        String.mk (sanitizeSpec "ash k.") ++ "_AI_FIX") ∧
    validate_branch "Team Rocket!" "ash k." "fix/team-rocket--ash-k-" = true := by
  constructor
  · exact branch_naming_characterisation.1 "Team Rocket!" "ash k." (by decide) (by decide)
  · exact (branch_naming_characterisation.2 "Team Rocket!" "ash k."
      "fix/team-rocket--ash-k-").mpr (by decide)

theorem startsWithL_self_append (pat b : List Char) : startsWithL pat (pat ++ b) = true := by
  unfold startsWithL
  rw [List.take_left]
  simp

theorem startsWithL_eq_append {pat s : List Char} (h : startsWithL pat s = true) :
    s = pat ++ s.drop pat.length := by
  unfold startsWithL at h
  simp only [decide_eq_true_eq] at h
  conv_lhs => rw [← List.take_append_drop pat.length s]
  rw [h]

theorem startsWithL_cons_false {p0 : Char} {pat : List Char} {c : Char} {t : List Char}
    (h : ¬ p0 = c) : startsWithL (p0 :: pat) (c :: t) = false := by
  unfold startsWithL
  simp only [List.length_cons, List.take_succ_cons, decide_eq_false_iff_not]
  intro heq
  injection heq with h1 h2
  exact h h1.symm

theorem startsWithL_nil_false {p0 : Char} {pat : List Char} :
    startsWithL (p0 :: pat) [] = false := by
  unfold startsWithL
  simp

theorem startsWithL_cons_cons (c : Char) (pat s : List Char) :
    startsWithL (c :: pat) (c :: s) = startsWithL pat s := by
  unfold startsWithL
  simp [List.take_succ_cons]

theorem startsWithL_false_of_take {pat k : List Char} (b : List Char) {n : Nat}
    (hn : n ≤ pat.length) (hnk : n ≤ k.length) (h : ¬ pat.take n = k.take n) :
    startsWithL pat (k ++ b) = false := by
  unfold startsWithL
  simp only [decide_eq_false_iff_not]
  intro heq
  apply h
  have h2 := congrArg (List.take n) heq
  rw [List.take_take, Nat.min_eq_left hn, List.take_append_of_le_length hnk] at h2
  exact h2.symm

theorem startsWithL_append_long {pat a : List Char} (b : List Char)
    (h : pat.length ≤ a.length) :
    startsWithL pat (a ++ b) = startsWithL pat a := by
  unfold startsWithL
  rw [List.take_append_of_le_length h]

theorem char_toNat_ofNat {n : Nat} (h : n.isValidChar) : (Char.ofNat n).toNat = n := by
  simp [Char.ofNat, h, Char.ofNatAux, Char.toNat, UInt32.toNat]

theorem toLower_idem (c : Char) : Char.toLower (Char.toLower c) = Char.toLower c := by
  unfold Char.toLower
  by_cases h : 65 ≤ c.toNat ∧ c.toNat ≤ 90
  · rw [if_pos h]
    have hv : (c.toNat + 32).isValidChar := by
      left
      omega
    rw [if_neg (by rw [char_toNat_ofNat hv]; omega)]
  · rw [if_neg h, if_neg h]

theorem toLower_ne_newline {c : Char} (h : c ≠ '\n') : Char.toLower c ≠ '\n' := by
  unfold Char.toLower
  by_cases hc : 65 ≤ c.toNat ∧ c.toNat ≤ 90
  · rw [if_pos hc]
    intro heq
    have hv : (c.toNat + 32).isValidChar := by
      left
      omega
    have := congrArg Char.toNat heq
    rw [char_toNat_ofNat hv] at this
    have : ('\n').toNat = 10 := by decide
    omega
  · rw [if_neg hc]
    exact h

theorem pyRstrip_append (a b : List Char) :
    pyRstrip (a ++ b) = if pyRstrip b = [] then pyRstrip a else a ++ pyRstrip b := by
  unfold pyRstrip
  rw [List.reverse_append, List.dropWhile_append]
  by_cases hb : List.dropWhile pyIsSpace b.reverse = []
  · rw [if_pos (by simp [List.isEmpty_iff, hb]), if_pos (by simp [hb])]
  · rw [if_neg (by simp [List.isEmpty_iff, hb]), if_neg (by simp [hb])]
    rw [List.reverse_append, List.reverse_reverse]

theorem pyLstrip_cons_not {c : Char} (t : List Char) (h : pyIsSpace c = false) :
    pyLstrip (c :: t) = c :: t := by
  unfold pyLstrip
  rw [List.dropWhile_cons, if_neg (by simp [h])]

theorem pyStrip_shape {c : Char} (t b : List Char) (hc : pyIsSpace c = false)
    (hb : pyRstrip b = b) (hbne : b ≠ []) :
    pyStrip (c :: t ++ b) = c :: t ++ b := by
  unfold pyStrip
  rw [show pyLstrip (c :: t ++ b) = c :: t ++ b from pyLstrip_cons_not _ hc]
  rw [show c :: t ++ b = (c :: t) ++ b from rfl, pyRstrip_append]
  rw [if_neg (by rw [hb]; exact hbne)]
  rw [hb]

theorem takeWhile_ne_newline_all {l : List Char} (h : ∀ x ∈ l, x ≠ '\n') :
    l.takeWhile (fun c => c ≠ '\n') = l := by
  apply takeWhile_all
  intro x hx
  simp [h x hx]


theorem tailFix_eval {d fx : List Char} (hd : d ≠ []) (hdd : ∀ x ∈ d, x.isDigit = true)
    (hfx : fx ≠ []) (hfxn : ∀ x ∈ fx, x ≠ '\n') :
    tailFix (" line ".data ++ d ++ " → Fix: ".data ++ fx) = some (d, fx) := by
  have hsp : (" → Fix: ".data : List Char) = ' ' :: "→ Fix: ".data := rfl
  have harg : " line ".data ++ d ++ " → Fix: ".data ++ fx =
      " line ".data ++ (d ++ ' ' :: ("→ Fix: ".data ++ fx)) := by
    rw [hsp]; simp [List.append_assoc]
  rw [harg]
  unfold tailFix
  rw [startsWithL_self_append, if_pos rfl]
  dsimp only
  rw [List.drop_left]
  rw [takeWhile_stops hdd (by decide)]
  rw [if_neg (by simp [List.isEmpty_iff, hd])]
  rw [List.drop_left]
  rw [show ' ' :: ("→ Fix: ".data ++ fx) = " → Fix: ".data ++ fx from by simp [hsp]]
  rw [startsWithL_self_append, if_pos rfl]
  rw [List.drop_left]
  rw [takeWhile_ne_newline_all hfxn]
  rw [if_neg (by simp [List.isEmpty_iff, hfx])]

theorem tailFix_sound {cs d fx : List Char} (h : tailFix cs = some (d, fx)) :
    ∃ r, cs = " line ".data ++ d ++ " → Fix: ".data ++ fx ++ r ∧
      d ≠ [] ∧ (∀ x ∈ d, x.isDigit = true) ∧ fx ≠ [] ∧ (∀ x ∈ fx, x ≠ '\n') := by
  unfold tailFix at h
  by_cases h1 : startsWithL " line ".data cs
  case neg =>
    rw [if_neg h1] at h
    exact absurd h (by simp)
  rw [if_pos h1] at h
  by_cases h2 : ((cs.drop " line ".data.length).takeWhile Char.isDigit).isEmpty
  case pos =>
    rw [if_pos h2] at h
    exact absurd h (by simp)
  rw [if_neg h2] at h
  by_cases h3 : startsWithL " → Fix: ".data
      ((cs.drop " line ".data.length).drop
        ((cs.drop " line ".data.length).takeWhile Char.isDigit).length)
  case neg =>
    rw [if_neg h3] at h
    exact absurd h (by simp)
  rw [if_pos h3] at h
  by_cases h4 : ((((cs.drop " line ".data.length).drop
      ((cs.drop " line ".data.length).takeWhile Char.isDigit).length).drop
        " → Fix: ".data.length).takeWhile (fun c => c ≠ '\n')).isEmpty
  case pos =>
    rw [if_pos h4] at h
    exact absurd h (by simp)
  rw [if_neg h4] at h
  have h' := Option.some.inj h
  have hcs := startsWithL_eq_append h1
  have hd1 : (cs.drop " line ".data.length).takeWhile Char.isDigit = d :=
    congrArg Prod.fst h'
  have hfx1 : (((cs.drop " line ".data.length).drop
      ((cs.drop " line ".data.length).takeWhile Char.isDigit).length).drop
        " → Fix: ".data.length).takeWhile (fun c => c ≠ '\n') = fx :=
    congrArg Prod.snd h'
  rw [hd1] at h3 hfx1 h4
  set A := cs.drop " line ".data.length with hAdef
  have hr1 : d ++ A.drop d.length = A := by
    conv_rhs => rw [← takeWhile_self_append (p := Char.isDigit) A]
    rw [hd1]
  have hr2 := startsWithL_eq_append h3
  have hfxC : fx ++ ((A.drop d.length).drop " → Fix: ".data.length).drop fx.length =
      (A.drop d.length).drop " → Fix: ".data.length := by
    conv_rhs =>
      rw [← takeWhile_self_append (p := fun c => c ≠ '\n')
        ((A.drop d.length).drop " → Fix: ".data.length)]
    rw [hfx1]
  refine ⟨((A.drop d.length).drop " → Fix: ".data.length).drop fx.length,
    ?_, ?_, ?_, ?_, ?_⟩
  · have key : " line ".data ++ d ++ " → Fix: ".data ++ fx ++
        (((A.drop d.length).drop " → Fix: ".data.length).drop fx.length) =
        " line ".data ++ A := by
      conv_rhs => rw [← hr1, hr2, ← hfxC]
      simp [List.append_assoc]
    rw [hcs]
    exact key.symm
  · rw [← hd1]
    simpa using h2
  · intro x hx
    rw [← hd1] at hx
    exact List.mem_takeWhile_imp hx
  · rw [← hfx1]
    simpa using h4
  · intro x hx
    rw [← hfx1] at hx
    have := List.mem_takeWhile_imp hx
    simpa using this

theorem tailFix_not_line {cs : List Char} (h : startsWithL " line ".data cs = false) :
    tailFix cs = none := by
  unfold tailFix
  rw [if_neg (by simp [h])]

theorem space_ne_digit {c : Char} (h : c.isDigit = true) : ¬ (' ' = c) := by
  intro he
  rw [← he] at h
  exact absurd h (by decide)

theorem lchar_ne_digit {c : Char} (h : c.isDigit = true) : ¬ ('l' = c) := by
  intro he
  rw [← he] at h
  exact absurd h (by decide)

theorem startsWithL_line_head {c : Char} (t : List Char) (h : ¬ (' ' = c)) :
    startsWithL " line ".data (c :: t) = false := by
  rw [show (" line ".data : List Char) = ' ' :: "line ".data from rfl]
  exact startsWithL_cons_false h

theorem startsWithL_line_second {c : Char} (t : List Char) (h : ¬ ('l' = c)) :
    startsWithL " line ".data (' ' :: c :: t) = false := by
  rw [show (" line ".data : List Char) = ' ' :: "line ".data from rfl,
    startsWithL_cons_cons,
    show ("line ".data : List Char) = 'l' :: "ine ".data from rfl]
  exact startsWithL_cons_false h

theorem tailFix_none_suffix_of_fx {fx : List Char}
    (hfix : ¬ ("→ Fix:".data <:+: fx)) (m : Nat) :
    tailFix (fx.drop m) = none := by
  rcases hS : tailFix (fx.drop m) with - | ⟨d', fx'⟩
  · rfl
  exfalso
  obtain ⟨r, hEq, -, -, -, -⟩ := tailFix_sound hS
  apply hfix
  refine ⟨fx.take m ++ (" line ".data ++ d' ++ [' ']), [' '] ++ (fx' ++ r), ?_⟩
  conv_rhs => rw [← List.take_append_drop m fx, hEq]
  rw [show (" → Fix: ".data : List Char) = [' '] ++ ("→ Fix:".data ++ [' ']) from rfl]
  simp [List.append_assoc]

theorem tailFix_none_space_fx {fx : List Char}
    (hfix : ¬ ("→ Fix:".data <:+: fx)) :
    tailFix ([' '] ++ fx) = none := by
  rcases hS : tailFix ([' '] ++ fx) with - | ⟨d', fx'⟩
  · rfl
  exfalso
  obtain ⟨r, hEq, -, -, -, -⟩ := tailFix_sound hS
  apply hfix
  have h0 : [' '] ++ fx =
      [' '] ++ ("line ".data ++ (d' ++ (" → Fix: ".data ++ (fx' ++ r)))) := by
    rw [hEq, show (" line ".data : List Char) = [' '] ++ "line ".data from rfl]
    simp [List.append_assoc]
  have hEq2 := List.append_cancel_left h0
  refine ⟨"line ".data ++ d' ++ [' '], [' '] ++ (fx' ++ r), ?_⟩
  rw [hEq2, show (" → Fix: ".data : List Char) = [' '] ++ ("→ Fix:".data ++ [' ']) from rfl]
  simp [List.append_assoc]

theorem tailFix_none_inside {d fx : List Char} (hd : d ≠ []) (hdd : ∀ x ∈ d, x.isDigit = true)
    (hfix : ¬ ("→ Fix:".data <:+: fx)) {j : Nat} (hj : 1 ≤ j) :
    tailFix ((" line ".data ++ d ++ " → Fix: ".data ++ fx).drop j) = none := by
  obtain ⟨c0, d2, hd0⟩ := List.exists_cons_of_ne_nil hd
  have hc0 : c0.isDigit = true := hdd c0 (by rw [hd0]; exact List.mem_cons_self c0 d2)
  rcases Nat.lt_or_ge j 6 with hA | hge6
  · rw [show " line ".data ++ d ++ " → Fix: ".data ++ fx =
        " line ".data ++ (d ++ (" → Fix: ".data ++ fx)) from by simp [List.append_assoc]]
    rw [List.drop_append_of_le_length (by
      rw [show ((" line ".data : List Char)).length = 6 from rfl]; omega)]
    interval_cases j
    · rw [show (" line ".data : List Char).drop 1 = 'l' :: "ine ".data from rfl,
        List.cons_append]
      exact tailFix_not_line (startsWithL_line_head _ (by decide))
    · rw [show (" line ".data : List Char).drop 2 = 'i' :: "ne ".data from rfl,
        List.cons_append]
      exact tailFix_not_line (startsWithL_line_head _ (by decide))
    · rw [show (" line ".data : List Char).drop 3 = 'n' :: "e ".data from rfl,
        List.cons_append]
      exact tailFix_not_line (startsWithL_line_head _ (by decide))
    · rw [show (" line ".data : List Char).drop 4 = 'e' :: " ".data from rfl,
        List.cons_append]
      exact tailFix_not_line (startsWithL_line_head _ (by decide))
    · rw [show (" line ".data : List Char).drop 5 = [' '] from rfl,
        List.singleton_append, hd0, List.cons_append]
      exact tailFix_not_line (startsWithL_line_second _ (lchar_ne_digit hc0))
  rcases Nat.lt_or_ge j (6 + d.length) with hB | hgeB
  · obtain ⟨i, rfl⟩ : ∃ i, j = 6 + i := ⟨j - 6, by omega⟩
    have hi : i < d.length := by omega
    rw [show " line ".data ++ d ++ " → Fix: ".data ++ fx =
        (" line ".data ++ d) ++ (" → Fix: ".data ++ fx) from by simp [List.append_assoc]]
    rw [List.drop_append_of_le_length (by
      rw [List.length_append, show ((" line ".data : List Char)).length = 6 from rfl]
      omega)]
    rw [show (6 : Nat) + i = ((" line ".data : List Char)).length + i from rfl,
      List.drop_append i, List.drop_eq_getElem_cons hi, List.cons_append]
    exact tailFix_not_line (startsWithL_line_head _
      (space_ne_digit (hdd _ (List.getElem_mem hi))))
  rcases Nat.lt_or_ge j (14 + d.length) with hC | hD
  · obtain ⟨i, rfl⟩ : ∃ i, j = (6 + d.length) + i := ⟨j - (6 + d.length), by omega⟩
    have hi : i < 8 := by omega
    rw [show " line ".data ++ d ++ " → Fix: ".data ++ fx =
        (" line ".data ++ d) ++ (" → Fix: ".data ++ fx) from by simp [List.append_assoc]]
    rw [show (6 + d.length) + i = (" line ".data ++ d).length + i from by
      rw [List.length_append, show ((" line ".data : List Char)).length = 6 from rfl]]
    rw [List.drop_append i]
    rw [List.drop_append_of_le_length (by
      rw [show ((" → Fix: ".data : List Char)).length = 8 from rfl]; omega)]
    interval_cases i
    · rw [show (" → Fix: ".data : List Char).drop 0 = ' ' :: '→' :: " Fix: ".data from rfl,
        List.cons_append, List.cons_append]
      exact tailFix_not_line (startsWithL_line_second _ (by decide))
    · rw [show (" → Fix: ".data : List Char).drop 1 = '→' :: " Fix: ".data from rfl,
        List.cons_append]
      exact tailFix_not_line (startsWithL_line_head _ (by decide))
    · rw [show (" → Fix: ".data : List Char).drop 2 = ' ' :: 'F' :: "ix: ".data from rfl,
        List.cons_append, List.cons_append]
      exact tailFix_not_line (startsWithL_line_second _ (by decide))
    · rw [show (" → Fix: ".data : List Char).drop 3 = 'F' :: "ix: ".data from rfl,
        List.cons_append]
      exact tailFix_not_line (startsWithL_line_head _ (by decide))
    · rw [show (" → Fix: ".data : List Char).drop 4 = 'i' :: "x: ".data from rfl,
        List.cons_append]
      exact tailFix_not_line (startsWithL_line_head _ (by decide))
    · rw [show (" → Fix: ".data : List Char).drop 5 = 'x' :: ": ".data from rfl,
        List.cons_append]
      exact tailFix_not_line (startsWithL_line_head _ (by decide))
    · rw [show (" → Fix: ".data : List Char).drop 6 = ':' :: " ".data from rfl,
        List.cons_append]
      exact tailFix_not_line (startsWithL_line_head _ (by decide))
    · rw [show (" → Fix: ".data : List Char).drop 7 = [' '] from rfl]
      exact tailFix_none_space_fx hfix
  · obtain ⟨m, rfl⟩ : ∃ m, j = (14 + d.length) + m := ⟨j - (14 + d.length), by omega⟩
    rw [show (14 + d.length) + m = ((" line ".data ++ d) ++ " → Fix: ".data).length + m from by
      rw [List.length_append, List.length_append,
        show ((" line ".data : List Char)).length = 6 from rfl,
        show ((" → Fix: ".data : List Char)).length = 8 from rfl]
      omega]
    rw [show " line ".data ++ d ++ " → Fix: ".data ++ fx =
        ((" line ".data ++ d) ++ " → Fix: ".data) ++ fx from rfl]
    rw [List.drop_append m]
    exact tailFix_none_suffix_of_fx hfix m

theorem findSplit_down {cs : List Char} {k : Nat} (hk1 : 1 ≤ k)
    (hval : validSplit cs k = true) :
    ∀ n, k ≤ n → (∀ j, k < j → j ≤ n → validSplit cs j = false) →
      findSplit cs n = some k := by
  intro n
  induction n with
  | zero => intro h0 _; omega
  | succ m ih =>
    intro hkn hnone
    rcases Nat.eq_or_lt_of_le hkn with heq | hlt
    · subst heq
      simp [findSplit, hval]
    · unfold findSplit
      rw [hnone (m + 1) (by omega) (by omega)]
      simp only [Bool.false_eq_true, if_false]
      exact ih (by omega) (fun j hj1 hj2 => hnone j hj1 (by omega))

theorem findSplit_sound {cs : List Char} {k : Nat} :
    ∀ n, findSplit cs n = some k → validSplit cs k = true ∧ 1 ≤ k := by
  intro n
  induction n with
  | zero => intro h; exact absurd h (by simp [findSplit])
  | succ m ih =>
    intro h
    unfold findSplit at h
    by_cases hv : validSplit cs (m + 1)
    · rw [if_pos hv] at h
      have := Option.some.inj h
      refine ⟨?_, by omega⟩
      rw [← this]
      exact hv
    · rw [if_neg hv] at h
      exact ih h

theorem matchKind_eval {k : List Char} (rest : List Char) (hk : k ∈ kindLits) :
    matchKind (k ++ rest) = some (k, rest) := by
  unfold kindLits at hk
  rcases List.mem_cons.mp hk with rfl | hk
  · unfold matchKind kindLits
    rw [List.find?_cons_of_pos _ (by exact startsWithL_self_append _ _)]
    dsimp only
    rw [List.drop_left]
  rcases List.mem_cons.mp hk with rfl | hk
  · have f1 : startsWithL "LINTING".data ("SYNTAX".data ++ rest) = false :=
      startsWithL_false_of_take (n := 1) rest (by decide) (by decide) (by decide)
    unfold matchKind kindLits
    rw [List.find?_cons_of_neg _ (by exact ne_true_of_eq_false f1),
      List.find?_cons_of_pos _ (by exact startsWithL_self_append _ _)]
    dsimp only
    rw [List.drop_left]
  rcases List.mem_cons.mp hk with rfl | hk
  · have f1 : startsWithL "LINTING".data ("LOGIC".data ++ rest) = false :=
      startsWithL_false_of_take (n := 2) rest (by decide) (by decide) (by decide)
    have f2 : startsWithL "SYNTAX".data ("LOGIC".data ++ rest) = false :=
      startsWithL_false_of_take (n := 1) rest (by decide) (by decide) (by decide)
    unfold matchKind kindLits
    rw [List.find?_cons_of_neg _ (by exact ne_true_of_eq_false f1),
      List.find?_cons_of_neg _ (by exact ne_true_of_eq_false f2),
      List.find?_cons_of_pos _ (by exact startsWithL_self_append _ _)]
    dsimp only
    rw [List.drop_left]
  rcases List.mem_cons.mp hk with rfl | hk
  · have f1 : startsWithL "LINTING".data ("TYPE_ERROR".data ++ rest) = false :=
      startsWithL_false_of_take (n := 1) rest (by decide) (by decide) (by decide)
    have f2 : startsWithL "SYNTAX".data ("TYPE_ERROR".data ++ rest) = false :=
      startsWithL_false_of_take (n := 1) rest (by decide) (by decide) (by decide)
    have f3 : startsWithL "LOGIC".data ("TYPE_ERROR".data ++ rest) = false :=
      startsWithL_false_of_take (n := 1) rest (by decide) (by decide) (by decide)
    unfold matchKind kindLits
    rw [List.find?_cons_of_neg _ (by exact ne_true_of_eq_false f1),
      List.find?_cons_of_neg _ (by exact ne_true_of_eq_false f2),
      List.find?_cons_of_neg _ (by exact ne_true_of_eq_false f3),
      List.find?_cons_of_pos _ (by exact startsWithL_self_append _ _)]
    dsimp only
    rw [List.drop_left]
  rcases List.mem_cons.mp hk with rfl | hk
  · have f1 : startsWithL "LINTING".data ("IMPORT".data ++ rest) = false :=
      startsWithL_false_of_take (n := 1) rest (by decide) (by decide) (by decide)
    have f2 : startsWithL "SYNTAX".data ("IMPORT".data ++ rest) = false :=
      startsWithL_false_of_take (n := 1) rest (by decide) (by decide) (by decide)
    have f3 : startsWithL "LOGIC".data ("IMPORT".data ++ rest) = false :=
      startsWithL_false_of_take (n := 1) rest (by decide) (by decide) (by decide)
    have f4 : startsWithL "TYPE_ERROR".data ("IMPORT".data ++ rest) = false :=
      startsWithL_false_of_take (n := 1) rest (by decide) (by decide) (by decide)
    unfold matchKind kindLits
    rw [List.find?_cons_of_neg _ (by exact ne_true_of_eq_false f1),
      List.find?_cons_of_neg _ (by exact ne_true_of_eq_false f2),
      List.find?_cons_of_neg _ (by exact ne_true_of_eq_false f3),
      List.find?_cons_of_neg _ (by exact ne_true_of_eq_false f4),
      List.find?_cons_of_pos _ (by exact startsWithL_self_append _ _)]
    dsimp only
    rw [List.drop_left]
  rcases List.mem_cons.mp hk with rfl | hk
  · have f1 : startsWithL "LINTING".data ("INDENTATION".data ++ rest) = false :=
      startsWithL_false_of_take (n := 1) rest (by decide) (by decide) (by decide)
    have f2 : startsWithL "SYNTAX".data ("INDENTATION".data ++ rest) = false :=
      startsWithL_false_of_take (n := 1) rest (by decide) (by decide) (by decide)
    have f3 : startsWithL "LOGIC".data ("INDENTATION".data ++ rest) = false :=
      startsWithL_false_of_take (n := 1) rest (by decide) (by decide) (by decide)
    have f4 : startsWithL "TYPE_ERROR".data ("INDENTATION".data ++ rest) = false :=
      startsWithL_false_of_take (n := 1) rest (by decide) (by decide) (by decide)
    have f5 : startsWithL "IMPORT".data ("INDENTATION".data ++ rest) = false :=
      startsWithL_false_of_take (n := 2) rest (by decide) (by decide) (by decide)
    unfold matchKind kindLits
    rw [List.find?_cons_of_neg _ (by exact ne_true_of_eq_false f1),
      List.find?_cons_of_neg _ (by exact ne_true_of_eq_false f2),
      List.find?_cons_of_neg _ (by exact ne_true_of_eq_false f3),
      List.find?_cons_of_neg _ (by exact ne_true_of_eq_false f4),
      List.find?_cons_of_neg _ (by exact ne_true_of_eq_false f5),
      List.find?_cons_of_pos _ (by exact startsWithL_self_append _ _)]
    dsimp only
    rw [List.drop_left]
  exact absurd hk (by simp)

theorem kind_head_shape {k : List Char} (hk : k ∈ kindLits) :
    ∃ kc kt, k = kc :: kt ∧ pyIsSpace kc = false := by
  unfold kindLits at hk
  rcases List.mem_cons.mp hk with rfl | hk
  · exact ⟨'L', "INTING".data, rfl, by decide⟩
  rcases List.mem_cons.mp hk with rfl | hk
  · exact ⟨'S', "YNTAX".data, rfl, by decide⟩
  rcases List.mem_cons.mp hk with rfl | hk
  · exact ⟨'L', "OGIC".data, rfl, by decide⟩
  rcases List.mem_cons.mp hk with rfl | hk
  · exact ⟨'T', "YPE_ERROR".data, rfl, by decide⟩
  rcases List.mem_cons.mp hk with rfl | hk
  · exact ⟨'I', "MPORT".data, rfl, by decide⟩
  rcases List.mem_cons.mp hk with rfl | hk
  · exact ⟨'I', "NDENTATION".data, rfl, by decide⟩
  exact absurd hk (by simp)

theorem parseClassifier_template {k f d fx : List Char}
    (hk : k ∈ kindLits) (hf : f ≠ []) (hfn : ∀ x ∈ f, x ≠ '\n')
    (hd : d ≠ []) (hdd : ∀ x ∈ d, x.isDigit = true)
    (hfx : fx ≠ []) (hfxn : ∀ x ∈ fx, x ≠ '\n')
    (hfix : ¬ ("→ Fix:".data <:+: fx)) (hrst : pyRstrip fx = fx) :
    parseClassifier (String.mk (k ++ " error in ".data ++ f ++ " line ".data ++ d ++
      " → Fix: ".data ++ fx)) = some (k, f, d, fx) := by
  obtain ⟨kc, kt, hkc, hkcns⟩ := kind_head_shape hk
  have hstrip : pyStrip (k ++ " error in ".data ++ f ++ " line ".data ++ d ++
      " → Fix: ".data ++ fx) = k ++ " error in ".data ++ f ++ " line ".data ++ d ++
      " → Fix: ".data ++ fx := by
    rw [show k ++ " error in ".data ++ f ++ " line ".data ++ d ++ " → Fix: ".data ++ fx =
      kc :: ((kt ++ " error in ".data ++ f ++ " line ".data ++ d ++ " → Fix: ".data) ++ fx)
      from by rw [hkc]; simp [List.append_assoc]]
    exact pyStrip_shape _ _ hkcns hrst hfx
  have hval : validSplit
      (f ++ (" line ".data ++ d ++ " → Fix: ".data ++ fx)) f.length = true := by
    have h1 : (f.all fun c => c ≠ '\n') = true := by
      rw [List.all_eq_true]
      intro x hx
      simpa using hfn x hx
    unfold validSplit
    rw [List.take_left f _, List.drop_left, tailFix_eval hd hdd hfx hfxn, h1]
    rfl
  have hnone : ∀ j, f.length < j →
      j ≤ (f ++ (" line ".data ++ d ++ " → Fix: ".data ++ fx)).length →
      validSplit (f ++ (" line ".data ++ d ++ " → Fix: ".data ++ fx)) j = false := by
    intro j hj1 hj2
    obtain ⟨i, rfl⟩ : ∃ i, j = f.length + (i + 1) := ⟨j - f.length - 1, by omega⟩
    unfold validSplit
    rw [List.drop_append (i + 1), tailFix_none_inside hd hdd hfix (by omega)]
    simp
  have hfind : findSplit (f ++ (" line ".data ++ d ++ " → Fix: ".data ++ fx))
      (f ++ (" line ".data ++ d ++ " → Fix: ".data ++ fx)).length = some f.length :=
    findSplit_down (by have := List.length_pos.mpr hf; omega) hval _
      (by rw [List.length_append]; omega) hnone
  unfold parseClassifier
  dsimp only
  rw [hstrip]
  rw [show k ++ " error in ".data ++ f ++ " line ".data ++ d ++ " → Fix: ".data ++ fx =
    k ++ (" error in ".data ++ (f ++ (" line ".data ++ d ++ " → Fix: ".data ++ fx)))
    from by simp [List.append_assoc]]
  rw [matchKind_eval _ hk]
  dsimp only
  rw [startsWithL_self_append, if_pos rfl, List.drop_left, hfind]
  dsimp only
  rw [List.drop_left, tailFix_eval hd hdd hfx hfxn]
  dsimp only
  rw [List.take_left f _]

theorem data_mk (l : List Char) : (String.mk l).data = l := rfl

theorem matchKind_U (t : List Char) : matchKind ('U' :: t) = none := by
  have u1 : startsWithL "LINTING".data ('U' :: t) = false :=
    startsWithL_false_of_take (n := 1) (k := ['U']) t (by decide) (by decide) (by decide)
  have u2 : startsWithL "SYNTAX".data ('U' :: t) = false :=
    startsWithL_false_of_take (n := 1) (k := ['U']) t (by decide) (by decide) (by decide)
  have u3 : startsWithL "LOGIC".data ('U' :: t) = false :=
    startsWithL_false_of_take (n := 1) (k := ['U']) t (by decide) (by decide) (by decide)
  have u4 : startsWithL "TYPE_ERROR".data ('U' :: t) = false :=
    startsWithL_false_of_take (n := 1) (k := ['U']) t (by decide) (by decide) (by decide)
  have u5 : startsWithL "IMPORT".data ('U' :: t) = false :=
    startsWithL_false_of_take (n := 1) (k := ['U']) t (by decide) (by decide) (by decide)
  have u6 : startsWithL "INDENTATION".data ('U' :: t) = false :=
    startsWithL_false_of_take (n := 1) (k := ['U']) t (by decide) (by decide) (by decide)
  unfold matchKind kindLits
  rw [List.find?_cons_of_neg _ (by exact ne_true_of_eq_false u1),
    List.find?_cons_of_neg _ (by exact ne_true_of_eq_false u2),
    List.find?_cons_of_neg _ (by exact ne_true_of_eq_false u3),
    List.find?_cons_of_neg _ (by exact ne_true_of_eq_false u4),
    List.find?_cons_of_neg _ (by exact ne_true_of_eq_false u5),
    List.find?_cons_of_neg _ (by exact ne_true_of_eq_false u6),
    List.find?_nil]

theorem classifierString_mk (a b c e : List Char) :
    classifierString ⟨a⟩ ⟨b⟩ ⟨c⟩ ⟨e⟩ =
      String.mk (a ++ " error in ".data ++ b ++ " line ".data ++ c ++
        " → Fix: ".data ++ e) := by
  apply String.ext
  simp [classifierString, String.data_append, data_mk, List.append_assoc]

/-- C8 (amended): on a classifier-grammar string whose description is nonempty,
newline-free, carries no "→ Fix:" marker of its own and has no trailing
whitespace, and whose file group is nonempty and newline-free,
reconstruct_format succeeds and returns the same string with the file path
lowercased; reapplying it to its own output returns that output unchanged
(idempotence), so the {kind, line, description} components are preserved and
the file component is preserved up to the lowercase normalisation. -/
theorem formatter_roundtrip {k f d fx : List Char}
    (hk : k ∈ kindLits) (hf : f ≠ []) (hfn : ∀ x ∈ f, x ≠ '\n')
    (hd : d ≠ []) (hdd : ∀ x ∈ d, x.isDigit = true)
    (hfx : fx ≠ []) (hfxn : ∀ x ∈ fx, x ≠ '\n')
    (hfix : ¬ ("→ Fix:".data <:+: fx)) (hrst : pyRstrip fx = fx) :
    reconstruct_format (classifierString ⟨k⟩ ⟨f⟩ ⟨d⟩ ⟨fx⟩) =
      some (classifierString ⟨k⟩ ⟨f.map Char.toLower⟩ ⟨d⟩ ⟨fx⟩) ∧
    reconstruct_format (classifierString ⟨k⟩ ⟨f.map Char.toLower⟩ ⟨d⟩ ⟨fx⟩) =
      some (classifierString ⟨k⟩ ⟨f.map Char.toLower⟩ ⟨d⟩ ⟨fx⟩) := by
  have hf2 : f.map Char.toLower ≠ [] := by simpa using hf
  have hfn2 : ∀ x ∈ f.map Char.toLower, x ≠ '\n' := by
    intro x hx
    rw [List.mem_map] at hx
    obtain ⟨y, hy, rfl⟩ := hx
    exact toLower_ne_newline (hfn y hy)
  have hmm : (f.map Char.toLower).map Char.toLower = f.map Char.toLower := by
    rw [List.map_map]
    exact List.map_congr_left (fun x _ => toLower_idem x)
  constructor
  · rw [classifierString_mk, classifierString_mk]
    unfold reconstruct_format
    rw [parseClassifier_template hk hf hfn hd hdd hfx hfxn hfix hrst]
    dsimp only
    refine congrArg some (String.ext ?_)
    simp [String.data_append, data_mk, List.append_assoc]
  · rw [classifierString_mk]
    unfold reconstruct_format
    rw [parseClassifier_template hk hf2 hfn2 hd hdd hfx hfxn hfix hrst]
    dsimp only
    refine congrArg some (String.ext ?_)
    simp [String.data_append, data_mk, List.append_assoc, hmm]

/-- C8, witness: a concrete grammar string round-trips with the file path
lowercased and the formatter is idempotent on the result. -/
theorem formatter_roundtrip_witness :
    reconstruct_format (classifierString ⟨"LOGIC".data⟩ ⟨"A.py".data⟩ ⟨"3".data⟩
        ⟨"ok".data⟩) =
      some (classifierString ⟨"LOGIC".data⟩ ⟨"A.py".data.map Char.toLower⟩ ⟨"3".data⟩
        ⟨"ok".data⟩) ∧
    reconstruct_format (classifierString ⟨"LOGIC".data⟩ ⟨"A.py".data.map Char.toLower⟩
        ⟨"3".data⟩ ⟨"ok".data⟩) =
      some (classifierString ⟨"LOGIC".data⟩ ⟨"A.py".data.map Char.toLower⟩ ⟨"3".data⟩
        ⟨"ok".data⟩) :=
  formatter_roundtrip (by decide) (by decide) (by decide) (by decide) (by decide)
    (by decide) (by decide) (by decide) (by decide)

/-- C8, counterexample to the unqualified claim: a string of the classifier
grammar whose description is a single space is not re-parsed (strip removes
the description, so the regex fails and ValueError is raised, modelled as
none), so the formatter does not return the triple for every grammar string. -/
theorem formatter_claim_false :
    reconstruct_format (classifierString "LOGIC" "a.py" "3" " ") = none := by decide

/-- C10: the formatter returns a string only when the stripped input matches
the strict classifier grammar — six recognized bug kinds, the literal
" error in ", a nonempty newline-free file group, " line ", nonempty digits,
" → Fix: " and a nonempty description — so every non-matching input raises
ValueError (modelled as none); in particular the classifier's conservative
fallback "UNKNOWN error in {file} line {line} → Fix: manual review required"
is always rejected, for every file path and line number. -/
theorem formatter_soundness :
    (∀ s out, reconstruct_format s = some out → classifierGrammar (pyStrip s.data)) ∧
    (∀ fp ln, reconstruct_format (unknownFallback fp ln) = none) := by
  constructor
  · intro s out h
    unfold reconstruct_format at h
    rcases hp : parseClassifier s with - | ⟨k1, f1, d1, x1⟩
    · rw [hp] at h
      exact absurd h (by simp)
    rw [hp] at h
    unfold parseClassifier at hp
    dsimp only at hp
    rcases hmk : matchKind (pyStrip s.data) with - | ⟨kx, r0⟩
    · rw [hmk] at hp
      exact absurd hp (by simp)
    rw [hmk] at hp
    dsimp only at hp
    unfold matchKind at hmk
    rcases hq : kindLits.find? (fun u => startsWithL u (pyStrip s.data)) with - | kz
    · rw [hq] at hmk
      exact absurd hmk (by simp)
    rw [hq] at hmk
    dsimp only at hmk
    have hinj := Option.some.inj hmk
    have hkx : kz = kx := congrArg Prod.fst hinj
    have hr0 : (pyStrip s.data).drop kz.length = r0 := congrArg Prod.snd hinj
    have hkmem : kz ∈ kindLits := List.mem_of_find?_eq_some hq
    have hkpre : startsWithL kz (pyStrip s.data) = true := by
      have := List.find?_some hq
      simpa using this
    have e1 : pyStrip s.data = kz ++ r0 := by
      rw [← hr0]
      exact startsWithL_eq_append hkpre
    by_cases he : startsWithL " error in ".data r0
    case neg =>
      rw [if_neg he] at hp
      exact absurd hp (by simp)
    rw [if_pos he] at hp
    have e2 : r0 = " error in ".data ++ r0.drop " error in ".data.length :=
      startsWithL_eq_append he
    rcases hfs : findSplit (r0.drop " error in ".data.length)
        (r0.drop " error in ".data.length).length with - | kk
    · rw [hfs] at hp
      exact absurd hp (by simp)
    rw [hfs] at hp
    dsimp only at hp
    obtain ⟨hvs, hkk1⟩ := findSplit_sound _ hfs
    rcases htf : tailFix ((r0.drop " error in ".data.length).drop kk) with - | ⟨dd, fxx⟩
    · rw [htf] at hp
      exact absurd hp (by simp)
    rw [htf] at hp
    obtain ⟨rT, e4, hdne, hddig, hfxne, hfxnl⟩ := tailFix_sound htf
    obtain ⟨c, fxt, e5⟩ := List.exists_cons_of_ne_nil hfxne
    have hvs1 : ∀ x ∈ (r0.drop " error in ".data.length).take kk, x ≠ '\n' := by
      unfold validSplit at hvs
      rw [Bool.and_eq_true] at hvs
      have := List.all_eq_true.mp hvs.1
      intro x hx
      simpa using this x hx
    have hfne : (r0.drop " error in ".data.length).take kk ≠ [] := by
      have hd1 : (r0.drop " error in ".data.length).drop kk ≠ [] := by
        rw [e4]
        simp
      have hlt : kk < (r0.drop " error in ".data.length).length := by
        by_contra hcon
        push_neg at hcon
        exact hd1 (List.drop_eq_nil_of_le hcon)
      exact List.length_pos.mp (by rw [List.length_take]; omega)
    refine ⟨kz, (r0.drop " error in ".data.length).take kk, dd, c, fxt ++ rT,
      hkmem, ?_, hfne, hvs1, hdne, hddig, ?_⟩
    · conv_lhs => rw [e1, e2,
        (List.take_append_drop kk (r0.drop " error in ".data.length)).symm, e4, e5]
      simp [List.append_assoc]
    · apply hfxnl
      rw [e5]
      exact List.mem_cons_self c fxt
  · intro fp ln
    have hshape : (unknownFallback fp ln).data =
        'U' :: (("NKNOWN error in ".data ++ fp.data ++ " line ".data ++
          (toString ln).data) ++ " → Fix: manual review required".data) := by
      simp [unknownFallback, String.data_append, List.append_assoc]
    have hstrip2 : pyStrip (unknownFallback fp ln).data =
        'U' :: (("NKNOWN error in ".data ++ fp.data ++ " line ".data ++
          (toString ln).data) ++ " → Fix: manual review required".data) := by
      rw [hshape]
      exact pyStrip_shape _ _ (by decide) (by decide) (by decide)
    have hpc : parseClassifier (unknownFallback fp ln) = none := by
      unfold parseClassifier
      dsimp only
      rw [hstrip2, matchKind_U]
    unfold reconstruct_format
    rw [hpc]

/-- C10, witness: the soundness direction applied at a concrete accepted
input shows its stripped form is in the classifier grammar. -/
theorem formatter_soundness_witness :
    classifierGrammar (pyStrip "LOGIC error in A.py line 3 → Fix: ok".data) :=
  formatter_soundness.1 "LOGIC error in A.py line 3 → Fix: ok"
    "LOGIC error in a.py line 3 → Fix: ok" (by decide)
